import Mathlib

/-!
Verification of the Audion plugin runtime subsystem: a shallow embedding of
the marketplace cache, the per-plugin storage, the event emitter, the UI slot
manager and the plugin store orchestration, with the spec's testable
properties settled against these definitions.

JavaScript `Map` objects are embedded as association lists in insertion
order: `set` of an existing key replaces the value in place, `set` of a new
key appends, iteration follows the list order.  JavaScript `Set` objects are
embedded as duplicate-free lists in insertion order.
-/

namespace JsMap

/-- `Map.get`: the value of the first (in a well-formed map, the only) entry
whose key matches. -/
def lookupL {α β : Type} [DecidableEq α] : List (α × β) → α → Option β
  | [], _ => none
  | (k', v) :: rest, k => if k' = k then some v else lookupL rest k

/-- `Map.set`: replace the first entry with the key in place, else append. -/
def mapSetL {α β : Type} [DecidableEq α] : List (α × β) → α → β → List (α × β)
  | [], k, v => [(k, v)]
  | (k', v') :: rest, k, v =>
      if k' = k then (k, v) :: rest else (k', v') :: mapSetL rest k v

/-- `Map.delete`: drop the entries with the key (at most one in a
well-formed map). -/
def mapDeleteL {α β : Type} [DecidableEq α] (l : List (α × β)) (k : α) : List (α × β) :=
  l.filter (fun p => p.1 ≠ k)

/-- The keys of an association list. -/
def keysOf {α β : Type} (l : List (α × β)) : List α := l.map (fun p => p.1)

end JsMap

namespace Marketplace

open JsMap

/-- `CACHE_TTL = 5 * 60 * 1000` from `src/lib/plugins/marketplace.ts`. -/
def CACHE_TTL : Nat := 5 * 60 * 1000

/-- `MAX_CACHE_SIZE = 100` from `src/lib/plugins/marketplace.ts`. -/
def MAX_CACHE_SIZE : Nat := 100

/-- One cache slot: `{ data: MarketplacePlugin; timestamp: number }`.  The
plugin payload is opaque to the cache and embedded as a numeric tag. -/
structure CacheEntry where
  data : Nat
  timestamp : Nat
deriving DecidableEq, Repr

/-- The `PluginCache` private map `cache : Map<string, CacheEntry>`. -/
abbrev Cache := List (String × CacheEntry)

/-- `PluginCache.get(url)`, with the call's `Date.now()` passed explicitly:
returns the hit (if any) and the cache after the call.  An entry older than
`CACHE_TTL` is deleted and reported as a miss. -/
def cacheGet (c : Cache) (url : String) (now : Nat) : Option Nat × Cache :=
  match lookupL c url with
  | none => (none, c)
  | some e =>
      if CACHE_TTL < now - e.timestamp then (none, mapDeleteL c url)
      else (some e.data, c)

/-- `PluginCache.has(url)`, with the call's `Date.now()` passed explicitly. -/
def cacheHas (c : Cache) (url : String) (now : Nat) : Bool × Cache :=
  match lookupL c url with
  | none => (false, c)
  | some e =>
      if CACHE_TTL < now - e.timestamp then (false, mapDeleteL c url)
      else (true, c)

/-- The fold step of `evictOldest`'s `forEach`: keep the first entry whose
timestamp is strictly below the running minimum, which starts at
`Date.now()`. -/
def evictStep (acc : Option String × Nat) (p : String × CacheEntry) : Option String × Nat :=
  if p.2.timestamp < acc.2 then (some p.1, p.2.timestamp) else acc

/-- `PluginCache.evictOldest()`, with the call's `Date.now()` passed
explicitly. -/
def evictOldest (c : Cache) (now : Nat) : Cache :=
  match (c.foldl evictStep (none, now)).1 with
  | some u => mapDeleteL c u
  | none => c

/-- `PluginCache.set(url, data)`: evict when already at capacity, then insert
with the current time as timestamp. -/
def cacheSet (c : Cache) (url : String) (data : Nat) (now : Nat) : Cache :=
  let c1 := if MAX_CACHE_SIZE ≤ c.length then evictOldest c now else c
  mapSetL c1 url ⟨data, now⟩

/-- A cache of `MAX_CACHE_SIZE` distinct urls all inserted at time 0. -/
def fullSameTime : Cache :=
  (List.range MAX_CACHE_SIZE).map (fun i => ("u" ++ toString i, ⟨i, 0⟩))

/-- A full cache whose first entry is strictly older than the others. -/
def fullOneOld : Cache :=
  ("old", ⟨7, 0⟩) :: (List.range (MAX_CACHE_SIZE - 1)).map (fun i => ("u" ++ toString i, ⟨i, 1⟩))

end Marketplace

namespace PStorage

open JsMap

/-- `STORAGE_PREFIX` from `src/lib/plugins/plugin-storage.ts`. -/
def storagePrefix : String := "audion_plugin_"

/-- `DEFAULT_QUOTA_BYTES = 5 * 1024 * 1024`. -/
def DEFAULT_QUOTA_BYTES : Nat := 5 * 1024 * 1024

/-- `CACHE_TTL = 5000` for the usage cache. -/
def USAGE_CACHE_TTL : Nat := 5000

/-- The mutable fields of a `PluginStorage` instance together with the
browser `localStorage` it scans for usage accounting. -/
structure StorageState where
  pluginName : String
  quotaBytes : Nat
  localStore : List (String × String)
  cachedUsage : Option Nat
  cacheTimestamp : Nat
deriving Repr

/-- `PluginStorage.getKey`: the namespaced `localStorage` key. -/
def getKey (st : StorageState) (key : String) : String :=
  storagePrefix ++ st.pluginName ++ "_" ++ key

/-- `localStorage.getItem`. -/
def lsGet (ls : List (String × String)) (k : String) : Option String :=
  lookupL ls k

/-- The per-entry cost of the usage scan: `(key.length + value.length) * 2`
(UTF-16, two bytes per character; string length embedded as `String.length`). -/
def entryBytes (key value : String) : Nat := (key.length + value.length) * 2

/-- The `localStorage` scan of `getUsedBytes`: sum `entryBytes` over entries
whose key starts with this plugin's prefix. -/
def scanUsage (st : StorageState) : Nat :=
  (st.localStore.filter
      (fun p => p.1.startsWith (storagePrefix ++ st.pluginName ++ "_"))).foldl
    (fun total p => total + entryBytes p.1 p.2) 0

/-- `PluginStorage.getUsedBytes()`: serve the cached value while it is
younger than `USAGE_CACHE_TTL`, else rescan and cache.  Returns the value and
the instance after the call. -/
def getUsedBytes (st : StorageState) (now : Nat) : Nat × StorageState :=
  match st.cachedUsage with
  | some u =>
      if now - st.cacheTimestamp < USAGE_CACHE_TTL then (u, st)
      else
        let total := scanUsage st
        (total, { st with cachedUsage := some total, cacheTimestamp := now })
  | none =>
      let total := scanUsage st
      (total, { st with cachedUsage := some total, cacheTimestamp := now })

/-- `PluginStorage.checkQuota(storageKey, newValue)`: would the write keep
total usage within `quotaBytes`?  The delta is computed with signed
arithmetic, as in the source. -/
def checkQuota (st : StorageState) (now : Nat) (storageKey newValue : String) : Bool × StorageState :=
  let existingSize : Int :=
    match lsGet st.localStore storageKey with
    | some v => ((entryBytes storageKey v : Nat) : Int)
    | none => 0
  let newSize : Int := ((entryBytes storageKey newValue : Nat) : Int)
  let (currentUsed, st1) := getUsedBytes st now
  (decide (((currentUsed : Int) + (newSize - existingSize)) ≤ (st.quotaBytes : Int)), st1)

/-- `PluginStorage.invalidateCache()`. -/
def invalidateCache (st : StorageState) : StorageState :=
  { st with cachedUsage := none, cacheTimestamp := 0 }

/-- A call issued to the opaque Tauri command surface. -/
inductive BackendCmd where
  | saveData (pluginName key value : String)
deriving DecidableEq, Repr

/-- Result of a `set` call: its return value, the backend commands it issued
(in order), and the instance state afterwards. -/
structure SetResult where
  ok : Bool
  commands : List BackendCmd
  state : StorageState
deriving Repr

/-- `PluginStorage.set(key, value)` with `value` already serialized
(`JSON.stringify`).  The source forwards every write to `plugin_save_data`
without consulting `checkQuota`; `invokeOk` tells whether the backend call
succeeded. -/
def set (st : StorageState) (key serialized : String) (invokeOk : Bool) : SetResult :=
  if invokeOk then
    { ok := true
      commands := [BackendCmd.saveData st.pluginName key serialized]
      state := invalidateCache st }
  else
    { ok := false
      commands := [BackendCmd.saveData st.pluginName key serialized]
      state := st }

/-- A storage instance for plugin `p` with a zero-byte quota and empty
backing stores. -/
def zeroQuotaState : StorageState :=
  { pluginName := "p", quotaBytes := 0, localStore := [], cachedUsage := none, cacheTimestamp := 0 }

end PStorage

namespace Emitter

open JsMap

/-- The two registries of `EventEmitter`: `listeners : Map<event, Set<fn>>`
and `listenerOwners : Map<fn, pluginName>`.  Listener functions are embedded
by identity as numeric ids; each event's `Set` is a duplicate-free list in
insertion order. -/
structure EmitterState where
  listeners : List (String × List Nat)
  owners : List (Nat × String)
deriving DecidableEq, Repr

/-- The current subscriber list of an event (empty when the event has no
entry). -/
def subList (st : EmitterState) (event : String) : List Nat :=
  (lookupL st.listeners event).getD []

/-- Subscription: listener `id` is currently in `event`'s set. -/
def subscribed (st : EmitterState) (event : String) (id : Nat) : Prop :=
  id ∈ subList st event

instance (st : EmitterState) (event : String) (id : Nat) :
    Decidable (subscribed st event id) := by
  unfold subscribed; infer_instance

/-- `EventEmitter.on(event, listener, pluginName?)`: create the event's set
if missing, `Set.add` the listener, and record ownership when a plugin name
is given. -/
def onE (st : EmitterState) (event : String) (id : Nat) (owner : Option String) : EmitterState :=
  let cur := subList st event
  let cur' := if id ∈ cur then cur else cur ++ [id]
  { listeners := mapSetL st.listeners event cur'
    owners := match owner with
      | some o => mapSetL st.owners id o
      | none => st.owners }

/-- `EventEmitter.off(event, listener)`: delete the listener from the
event's set, drop its ownership record, and delete the event entry when its
set becomes empty.  When the event has no entry nothing happens. -/
def off (st : EmitterState) (event : String) (id : Nat) : EmitterState :=
  match lookupL st.listeners event with
  | none => st
  | some cur =>
      let cur' := cur.filter (fun j => j ≠ id)
      { listeners :=
          if cur'.length = 0 then mapDeleteL st.listeners event
          else mapSetL st.listeners event cur'
        owners := mapDeleteL st.owners id }

/-- `EventEmitter.listenerCount(event)`. -/
def listenerCount (st : EmitterState) (event : String) : Nat :=
  (subList st event).length

/-- The collection pass of `removePluginListeners`: every
`(event, listener)` pair whose listener is currently owned by the plugin, in
registry iteration order. -/
def collectOwned (st : EmitterState) (name : String) : List (String × Nat) :=
  st.listeners.flatMap
    (fun p => (p.2.filter (fun id => lookupL st.owners id = some name)).map
      (fun id => (p.1, id)))

/-- `EventEmitter.removePluginListeners(pluginName)`: collect the owned
pairs, then `off` each. -/
def removePluginListeners (st : EmitterState) (name : String) : EmitterState :=
  (collectOwned st name).foldl (fun s p => off s p.1 p.2) st

/-- A listener body for the emission semantics: what a subscribed callback
does when invoked.  Re-entrant calls back into the emitter are the behaviour
the claims quantify over, so bodies are drawn from this small syntax
(no registration, matching callbacks that do not re-subscribe themselves). -/
inductive Act where
  | skip
  | emitA (event : String)
  | offA (event : String) (id : Nat)
  | seq (a b : Act)
deriving DecidableEq, Repr

/-- The behaviour attached to a listener id: `once` is true for the wrapper
`EventEmitter.once` installs, and `act` is the user callback's body. -/
structure LBody where
  once : Bool
  act : Act

/-- Interpret one body, given an interpreter `emitFn` for re-entrant
`emit` calls.  Returns the new state and the invocation log produced. -/
def runActAux (emitFn : EmitterState → String → EmitterState × List Nat) :
    EmitterState → Act → EmitterState × List Nat
  | st, Act.skip => (st, [])
  | st, Act.offA e i => (off st e i, [])
  | st, Act.seq a b =>
      let r1 := runActAux emitFn st a
      let r2 := runActAux emitFn r1.1 b
      (r2.1, r1.2 ++ r2.2)
  | st, Act.emitA e => emitFn st e

/-- The `forEach` loop of `EventEmitter.emit`: visit the snapshot of the
event's set in order; a listener deleted before its turn is skipped
(JavaScript `Set.forEach` semantics).  A visited `once` wrapper first
unregisters itself via `off`, strictly before running the wrapped callback.
The log records each invoked listener id in order. -/
def visitIds (env : Nat → LBody) (runA : EmitterState → Act → EmitterState × List Nat)
    (e : String) : List Nat → EmitterState → EmitterState × List Nat
  | [], st => (st, [])
  | id :: rest, st =>
      if id ∈ subList st e then
        let st1 := if (env id).once then off st e id else st
        let r2 := runA st1 (env id).act
        let r3 := visitIds env runA e rest r2.1
        (r3.1, id :: (r2.2 ++ r3.2))
      else visitIds env runA e rest st

/-- `EventEmitter.emit`, with fuel bounding the depth of re-entrant
emission.  With fuel `f + 1` the emission snapshots the event's set and
visits it; nested emissions run with fuel `f`. -/
def emitF (env : Nat → LBody) : Nat → EmitterState → String → EmitterState × List Nat
  | 0, st, _ => (st, [])
  | f + 1, st, e => visitIds env (runActAux (emitF env f)) e (subList st e) st

/-- A sequence of top-level `emit` calls, concatenating their logs. -/
def emitSeq (env : Nat → LBody) (fuel : Nat) (st : EmitterState) :
    List String → EmitterState × List Nat
  | [] => (st, [])
  | e :: rest =>
      let r1 := emitF env fuel st e
      let r2 := emitSeq env fuel r1.1 rest
      (r2.1, r1.2 ++ r2.2)

/-- Total number of occurrences of listener `id` across all event sets. -/
def occ (st : EmitterState) (id : Nat) : Nat :=
  (st.listeners.map (fun p => p.2.count id)).sum

/-- Environment for the once witness: listener 0 is a `once` wrapper whose
callback re-entrantly emits `"e"`; every other id is an inert plain
listener. -/
def onceEnv : Nat → LBody :=
  fun i => if i = 0 then ⟨true, Act.emitA "e"⟩ else ⟨false, Act.skip⟩

/-- Environment of plain, inert listeners. -/
def skipEnv : Nat → LBody := fun _ => ⟨false, Act.skip⟩

end Emitter

namespace Slots

open JsMap

/-- `UISlotContent { pluginName, element, priority }`.  DOM elements are
embedded by identity as numeric ids; `cloneNode` yields a fresh id. -/
structure SlotContent where
  pluginName : String
  element : Nat
  priority : Int
deriving DecidableEq, Repr

/-- The `UISlotManager` registries: `slots : Map<slotName, UISlotContent[]>`
and `mirrorElements : Map<key, {slot, element}[]>`, plus the allocator for
fresh cloned-element ids. -/
structure SlotState where
  slots : List (String × List SlotContent)
  mirrors : List (String × List (String × Nat))
  nextElem : Nat
deriving DecidableEq, Repr

/-- `SLOT_MIRRORS`: the only mirror source is `playerbar:menu`, cloned into
`mobile:home`; every other slot has no entry. -/
def slotMirrors (slotName : String) : Option (List String) :=
  if slotName = "playerbar:menu" then some ["mobile:home"] else none

/-- Mirror bookkeeping key: `` `${slotName}::${content.pluginName}` ``. -/
def mirrorKey (slotName pluginName : String) : String :=
  slotName ++ "::" ++ pluginName

/-- The comparator `(a, b) => a.priority - b.priority` as a sort order. -/
def prioLe (a b : SlotContent) : Bool := a.priority ≤ b.priority

/-- The insert-or-replace step of `_addToSlot` (`findIndex >= 0` replaces the
first entry with the plugin's name in place, else `push` appends). -/
def upsert : List SlotContent → SlotContent → List SlotContent
  | [], c => [c]
  | x :: xs, c => if x.pluginName = c.pluginName then c :: xs else x :: upsert xs c

/-- `UISlotManager._addToSlot`: insert-or-replace the plugin's entry, then
sort by priority (JavaScript `Array.prototype.sort` is stable, as is
`List.mergeSort`). -/
def addToSlot (st : SlotState) (slotName : String) (content : SlotContent) : SlotState :=
  let cur := (lookupL st.slots slotName).getD []
  { st with slots := mapSetL st.slots slotName ((upsert cur content).mergeSort prioLe) }

/-- One iteration of `_removeMirrors`' loop: filter the recorded clone
element out of its slot; an absent slot is skipped. -/
def mirrorStep (sl : List (String × List SlotContent)) (se : String × Nat) :
    List (String × List SlotContent) :=
  match lookupL sl se.1 with
  | none => sl
  | some contents => mapSetL sl se.1 (contents.filter (fun c => c.element ≠ se.2))

/-- `UISlotManager._removeMirrors(key)`: filter each recorded clone out of
its slot (by element identity), then drop the bookkeeping entry.  Absent
keys and absent slots are skipped. -/
def removeMirrors (st : SlotState) (key : String) : SlotState :=
  match lookupL st.mirrors key with
  | none => st
  | some entries =>
      { st with slots := entries.foldl mirrorStep st.slots
                mirrors := mapDeleteL st.mirrors key }

/-- The mirror-cloning loop of `addContent`: for each target slot, clone the
element (fresh id), add the clone under the same plugin name and priority,
and record it. -/
def addMirrors (st : SlotState) (content : SlotContent) :
    List String → SlotState × List (String × Nat)
  | [] => (st, [])
  | target :: rest =>
      let eid := st.nextElem
      let clone : SlotContent :=
        { pluginName := content.pluginName, element := eid, priority := content.priority }
      let st1 := addToSlot { st with nextElem := eid + 1 } target clone
      let r := addMirrors st1 content rest
      (r.1, (target, eid) :: r.2)

/-- `UISlotManager.addContent(slotName, content)`: add to the slot; when the
slot is a mirror source, tear down the plugin's previous clones, clone into
each target and record the clones. -/
def addContent (st : SlotState) (slotName : String) (content : SlotContent) : SlotState :=
  let st1 := addToSlot st slotName content
  match slotMirrors slotName with
  | none => st1
  | some targets =>
      let key := mirrorKey slotName content.pluginName
      let st2 := removeMirrors st1 key
      let r := addMirrors st2 content targets
      { r.1 with mirrors := mapSetL st2.mirrors key r.2 }

/-- `UISlotManager.removeContent(slotName, pluginName)`: drop the plugin's
entry from the slot, then its mirrors; returns unchanged when the slot has
no entry (`if (!slotContents) return`). -/
def removeContent (st : SlotState) (slotName pluginName : String) : SlotState :=
  match lookupL st.slots slotName with
  | none => st
  | some contents =>
      let st1 :=
        { st with slots :=
            mapSetL st.slots slotName (contents.filter (fun c => c.pluginName ≠ pluginName)) }
      removeMirrors st1 (mirrorKey slotName pluginName)

/-- `key.endsWith(suffix)`, embedded on the character data so that it
evaluates by reduction. -/
def strEndsWith (s t : String) : Bool := List.isSuffixOf t.data s.data

/-- `UISlotManager.removePluginContent(pluginName)`: filter the plugin's
entries out of every slot, then tear down every mirror key ending in
`` `::${pluginName}` ``. -/
def removePluginContent (st : SlotState) (pluginName : String) : SlotState :=
  let st1 :=
    { st with slots := st.slots.map (fun p => (p.1, p.2.filter (fun c => c.pluginName ≠ pluginName))) }
  let keys := (keysOf st1.mirrors).filter (fun k => strEndsWith k ("::" ++ pluginName))
  keys.foldl (fun s k => removeMirrors s k) st1

/-- A client-visible operation on the slot manager. -/
inductive SlotOp where
  | add (slotName : String) (content : SlotContent)
  | remove (slotName pluginName : String)
  | removeAll (pluginName : String)
deriving DecidableEq, Repr

/-- Apply one operation. -/
def applyOp (st : SlotState) : SlotOp → SlotState
  | SlotOp.add s c => addContent st s c
  | SlotOp.remove s p => removeContent st s p
  | SlotOp.removeAll p => removePluginContent st p

/-- The manager's initial state: empty registries. -/
def initState : SlotState := { slots := [], mirrors := [], nextElem := 0 }

/-- Run a sequence of operations from the initial state. -/
def runOps (ops : List SlotOp) : SlotState := ops.foldl applyOp initState

/-- Per-slot invariant of C8: one entry per plugin, ordered by ascending
priority. -/
def slotInv (cs : List SlotContent) : Prop :=
  (cs.map (fun c => c.pluginName)).Nodup ∧ cs.Pairwise (fun a b => a.priority ≤ b.priority)

end Slots

namespace Store

open JsMap

/-- The manifest fields the orchestration reads. -/
structure Manifest where
  name : String
  permissions : List String
deriving DecidableEq, Repr

/-- `PluginInfo` as returned by the backend `list_plugins` command. -/
structure PluginInfo where
  name : String
  enabled : Bool
  manifest : Manifest
  granted_permissions : List String
deriving DecidableEq, Repr

/-- `PluginError { name, error, timestamp }`. -/
structure PluginErrorR where
  name : String
  error : String
  timestamp : Nat
deriving DecidableEq, Repr

/-- `[...new Set(xs)]`: de-duplicate keeping first occurrences in order. -/
def jsDedup (l : List String) : List String :=
  l.foldl (fun acc x => if x ∈ acc then acc else acc ++ [x]) []

/-- The permission list the store passes to `runtime.grantPermissions` on
load, enable and update: `[...new Set([...granted_permissions,
...manifest.permissions])]`. -/
def computeGrant (p : PluginInfo) : List String :=
  jsDedup (p.granted_permissions ++ p.manifest.permissions)

/-- Modelled from the spec: `src/lib/plugins/runtime.ts` is not among the
sources, only its callers in the plugin store are.  Per spec section 4.1 the
permission manager grants with idempotent union semantics, and per section
4.5 the runtime keeps at most one loaded handle per name and an enabled
flag.  This structure holds that runtime-side state. -/
structure Runtime where
  perms : List (String × List String)
  loaded : List String
  enabledPlugins : List String
deriving DecidableEq, Repr

/-- Insert into a set-like list (no duplicates, insertion order). -/
def addUnique (l : List String) (x : String) : List String :=
  if x ∈ l then l else l ++ [x]

/-- Modelled from the spec: `runtime.grantPermissions` (runtime.ts not in
the sources) — union the new permissions into the plugin's granted set,
idempotently (spec section 4.1). -/
def grantPermissions (rt : Runtime) (name : String) (ps : List String) : Runtime :=
  { rt with perms := mapSetL rt.perms name (jsDedup ((lookupL rt.perms name).getD [] ++ ps)) }

/-- Modelled from the spec: `runtime.loadPlugin` followed by
`runtime.enablePlugin` on success (runtime.ts not in the sources) — loading
may fail with the plugin's thrown error message, a successful load registers
the handle, and enable marks it enabled (spec section 4.5). -/
def loadAndEnable (rt : Runtime) (name : String) : Except String Unit → Runtime × Option String
  | Except.ok _ =>
      ({ rt with loaded := addUnique rt.loaded name
                 enabledPlugins := addUnique rt.enabledPlugins name }, none)
  | Except.error msg => (rt, some msg)

/-- The store state the claims observe: the failed-plugins roster and the
runtime it drives. -/
structure StoreState where
  failedPlugins : List PluginErrorR
  rt : Runtime
deriving DecidableEq, Repr

/-- `recordPluginFailure(name, error)`: drop any previous record for the
name, then append the new one. -/
def recordPluginFailure (roster : List PluginErrorR) (name msg : String) (now : Nat) :
    List PluginErrorR :=
  roster.filter (fun f => f.name ≠ name) ++ [⟨name, msg, now⟩]

/-- `clearPluginFailure(name)`. -/
def clearPluginFailure (roster : List PluginErrorR) (name : String) : List PluginErrorR :=
  roster.filter (fun f => f.name ≠ name)

/-- One iteration of `init`'s auto-load loop (part_002 lines 229-252): for
an enabled plugin, grant the merged permissions, then load and enable inside
the per-plugin try/catch; `loadRes` is the outcome each plugin's entry code
would produce. -/
def initStep (loadRes : String → Except String Unit) (now : Nat) (st : StoreState)
    (p : PluginInfo) : StoreState :=
  if p.enabled then
    let rt1 := grantPermissions st.rt p.name (computeGrant p)
    match loadAndEnable rt1 p.name (loadRes p.manifest.name) with
    | (rt2, none) => { failedPlugins := clearPluginFailure st.failedPlugins p.name, rt := rt2 }
    | (rt2, some msg) =>
        { failedPlugins := recordPluginFailure st.failedPlugins p.name msg now, rt := rt2 }
  else st

/-- `init`'s startup auto-load: reset the failed roster, then process the
installed list sequentially. -/
def initAutoLoad (loadRes : String → Except String Unit) (now : Nat) (rt0 : Runtime)
    (installed : List PluginInfo) : StoreState :=
  installed.foldl (initStep loadRes now) { failedPlugins := [], rt := rt0 }

/-- The runtime section of `enablePlugin(name)` (part_002 lines 542-586):
find the installed record, grant the merged permissions, load if not already
loaded (recording or clearing failures), then enable. -/
def enablePluginRt (loadRes : String → Except String Unit) (now : Nat) (st : StoreState)
    (installed : List PluginInfo) (name : String) : StoreState :=
  match installed.find? (fun p => p.name = name) with
  | none => st
  | some p =>
      let rt1 := grantPermissions st.rt name (computeGrant p)
      if name ∈ rt1.loaded then
        { st with rt := { rt1 with enabledPlugins := addUnique rt1.enabledPlugins name } }
      else
        match loadAndEnable rt1 name (loadRes p.manifest.name) with
        | (rt2, none) =>
            { failedPlugins := clearPluginFailure st.failedPlugins name, rt := rt2 }
        | (rt2, some msg) =>
            { failedPlugins := recordPluginFailure st.failedPlugins name msg now, rt := rt2 }

/-- Modelled from the spec: `runtime.unloadPlugin` (runtime.ts not in the
sources) — drop the handle and enabled flag, revoking no permissions (spec
section 4.5 unload). -/
def unloadPlugin (rt : Runtime) (name : String) : Runtime :=
  { rt with loaded := rt.loaded.filter (fun n => n ≠ name)
            enabledPlugins := rt.enabledPlugins.filter (fun n => n ≠ name) }

/-- The runtime section of `updatePlugin(name)` (part_002 lines 316-361):
with the backend's updated record, when it is enabled, unload the old
version, grant the merged permissions, reload and re-enable, recording or
clearing failures. -/
def updatePluginRt (loadRes : String → Except String Unit) (now : Nat) (st : StoreState)
    (updatedInfo : PluginInfo) : StoreState :=
  if updatedInfo.enabled then
    let rt0 := unloadPlugin st.rt updatedInfo.name
    let rt1 := grantPermissions rt0 updatedInfo.name (computeGrant updatedInfo)
    match loadAndEnable rt1 updatedInfo.name (loadRes updatedInfo.manifest.name) with
    | (rt2, none) =>
        { failedPlugins := clearPluginFailure st.failedPlugins updatedInfo.name, rt := rt2 }
    | (rt2, some msg) =>
        { failedPlugins := recordPluginFailure st.failedPlugins updatedInfo.name msg now, rt := rt2 }
  else st

/-- The granted set the runtime holds for a plugin. -/
def grantedOf (rt : Runtime) (name : String) : List String :=
  (lookupL rt.perms name).getD []

end Store

namespace JsMap

theorem lookupL_mapSetL_self {α β : Type} [DecidableEq α] (l : List (α × β)) (k : α) (v : β) :
    lookupL (mapSetL l k v) k = some v := by
  induction l with
  | nil => simp [mapSetL, lookupL]
  | cons p rest ih =>
      obtain ⟨k', v'⟩ := p
      by_cases h : k' = k
      · simp [mapSetL, h, lookupL]
      · simpa [mapSetL, h, lookupL] using ih

theorem lookupL_mem {α β : Type} [DecidableEq α] {l : List (α × β)} {k : α} {v : β}
    (h : lookupL l k = some v) : (k, v) ∈ l := by
  induction l with
  | nil => simp [lookupL] at h
  | cons p rest ih =>
      obtain ⟨a, b⟩ := p
      by_cases hak : a = k
      · subst hak
        simp [lookupL] at h
        subst h
        exact List.mem_cons_self _ _
      · simp only [lookupL, if_neg hak] at h
        exact List.mem_cons_of_mem _ (ih h)

end JsMap

namespace Store

theorem jsDedup_go_mem (l acc : List String) (x : String) :
    x ∈ l.foldl (fun acc x => if x ∈ acc then acc else acc ++ [x]) acc ↔ x ∈ acc ∨ x ∈ l := by
  induction l generalizing acc with
  | nil => simp
  | cons y tl ih =>
      simp only [List.foldl_cons]
      by_cases hy : y ∈ acc
      · rw [if_pos hy, ih]
        constructor
        · rintro (h | h)
          · exact Or.inl h
          · exact Or.inr (List.mem_cons_of_mem _ h)
        · rintro (h | h)
          · exact Or.inl h
          · rcases List.mem_cons.mp h with rfl | h
            · exact Or.inl hy
            · exact Or.inr h
      · rw [if_neg hy, ih]
        simp only [List.mem_append, List.mem_singleton, List.mem_cons]
        tauto

theorem jsDedup_go_nodup (l : List String) (acc : List String) (hacc : acc.Nodup) :
    (l.foldl (fun acc x => if x ∈ acc then acc else acc ++ [x]) acc).Nodup := by
  induction l generalizing acc with
  | nil => simpa
  | cons y tl ih =>
      simp only [List.foldl_cons]
      by_cases hy : y ∈ acc
      · rw [if_pos hy]; exact ih acc hacc
      · rw [if_neg hy]
        refine ih _ ?_
        simpa [List.nodup_append] using ⟨hacc, hy⟩

theorem mem_jsDedup (l : List String) (x : String) : x ∈ jsDedup l ↔ x ∈ l := by
  unfold jsDedup; rw [jsDedup_go_mem]; simp

theorem jsDedup_nodup (l : List String) : (jsDedup l).Nodup :=
  jsDedup_go_nodup l [] List.nodup_nil

theorem mem_computeGrant (p : PluginInfo) (x : String) :
    x ∈ computeGrant p ↔ x ∈ p.granted_permissions ∨ x ∈ p.manifest.permissions := by
  unfold computeGrant; rw [mem_jsDedup]; simp

theorem grantedOf_grantPermissions_self (rt : Runtime) (name : String) (ps : List String) :
    grantedOf (grantPermissions rt name ps) name =
      jsDedup ((JsMap.lookupL rt.perms name).getD [] ++ ps) := by
  unfold grantedOf grantPermissions
  rw [JsMap.lookupL_mapSetL_self]
  rfl

theorem mem_grantedOf_grant (rt : Runtime) (name : String) (ps : List String) (x : String)
    (hx : x ∈ ps) : x ∈ grantedOf (grantPermissions rt name ps) name := by
  rw [grantedOf_grantPermissions_self, mem_jsDedup]
  exact List.mem_append_right _ hx

theorem mem_addUnique_self (l : List String) (x : String) : x ∈ addUnique l x := by
  unfold addUnique
  by_cases h : x ∈ l
  · simp [h]
  · simp [h]

end Store

/-- C1: `PluginStorage.set` never rejects a write on quota grounds: for
every state, key and serialized value it issues the `plugin_save_data`
backend command, and at the failing input — a plugin with a zero-byte quota
writing `"v"` under `"k"` — the write still reaches the backing store and
`set` reports success, even though `checkQuota` computed on that very state
answers `false`. -/
theorem C1_quota_never_enforced :
    (∀ (st : PStorage.StorageState) (key v : String) (ok : Bool),
      (PStorage.set st key v ok).commands = [PStorage.BackendCmd.saveData st.pluginName key v]) ∧
    (PStorage.set PStorage.zeroQuotaState "k" "v" true).ok = true ∧
    (PStorage.set PStorage.zeroQuotaState "k" "v" true).commands =
      [PStorage.BackendCmd.saveData "p" "k" "v"] ∧
    (PStorage.checkQuota PStorage.zeroQuotaState 0
      (PStorage.getKey PStorage.zeroQuotaState "k") "v").1 = false := by
  refine ⟨?_, rfl, rfl, ?_⟩
  · intro st key v ok
    unfold PStorage.set
    by_cases h : ok = true
    · simp [h]
    · simp [h]
  · decide

/-- C10: `PluginCache.get` and `PluginCache.has` mutate the cache only on an
expired hit: a miss leaves the cache unchanged, a hit older than `CACHE_TTL`
deletes exactly the looked-up entry (every differently-keyed entry survives
and nothing keyed by the url remains) and reports a miss, and a fresh hit
returns the entry leaving every cache entry unchanged. -/
theorem C10_lookup_mutates_only_expired (c : Marketplace.Cache) (url : String) (now : Nat) :
    (JsMap.lookupL c url = none →
      Marketplace.cacheGet c url now = (none, c) ∧
      Marketplace.cacheHas c url now = (false, c)) ∧
    (∀ e : Marketplace.CacheEntry, JsMap.lookupL c url = some e →
      (Marketplace.CACHE_TTL < now - e.timestamp →
        Marketplace.cacheGet c url now = (none, JsMap.mapDeleteL c url) ∧
        Marketplace.cacheHas c url now = (false, JsMap.mapDeleteL c url) ∧
        (∀ q ∈ c, q.1 ≠ url → q ∈ JsMap.mapDeleteL c url) ∧
        (∀ q ∈ JsMap.mapDeleteL c url, q.1 ≠ url ∧ q ∈ c)) ∧
      (now - e.timestamp ≤ Marketplace.CACHE_TTL →
        Marketplace.cacheGet c url now = (some e.data, c) ∧
        Marketplace.cacheHas c url now = (true, c))) := by
  constructor
  · intro h
    constructor
    · unfold Marketplace.cacheGet; rw [h]
    · unfold Marketplace.cacheHas; rw [h]
  · intro e he
    constructor
    · intro hexp
      refine ⟨?_, ?_, ?_, ?_⟩
      · unfold Marketplace.cacheGet; rw [he]; simp [hexp]
      · unfold Marketplace.cacheHas; rw [he]; simp [hexp]
      · intro q hq hne
        unfold JsMap.mapDeleteL
        exact List.mem_filter.mpr ⟨hq, by simpa using hne⟩
      · intro q hq
        have := List.mem_filter.mp hq
        exact ⟨by simpa using this.2, this.1⟩
    · intro hfresh
      have hnot : ¬ Marketplace.CACHE_TTL < now - e.timestamp := Nat.not_lt.mpr hfresh
      constructor
      · unfold Marketplace.cacheGet; rw [he]; simp [hnot]
      · unfold Marketplace.cacheHas; rw [he]; simp [hnot]

/-- Witness for C10 at a concrete input: a cache holding one entry inserted
at time 0, looked up one millisecond past its TTL, is emptied and misses. -/
theorem C10_lookup_mutates_only_expired_witness :
    Marketplace.cacheGet [("u", ⟨5, 0⟩)] "u" (Marketplace.CACHE_TTL + 1) =
      (none, ([] : Marketplace.Cache)) := by
  have h :=
    ((C10_lookup_mutates_only_expired [("u", ⟨5, 0⟩)] "u" (Marketplace.CACHE_TTL + 1)).2
      ⟨5, 0⟩ (by decide)).1 (by decide)
  have h2 := h.1
  have : JsMap.mapDeleteL [(("u" : String), (⟨5, 0⟩ : Marketplace.CacheEntry))] "u" =
      ([] : Marketplace.Cache) := by decide
  rw [this] at h2
  exact h2

/-- C2: the permission list the store passes to the runtime on startup
auto-load, on `enablePlugin` and on `updatePlugin` is the de-duplicated
union of the backend's `granted_permissions` and the manifest's declared
permissions, and consequently every manifest-declared permission is in the
runtime's granted set after each of those paths, whatever the runtime held
before — a previously revoked manifest permission is re-granted. -/
theorem C2_manifest_permissions_regranted (p : Store.PluginInfo) :
    ((Store.computeGrant p).Nodup ∧
      (∀ x, x ∈ Store.computeGrant p ↔
        x ∈ p.granted_permissions ∨ x ∈ p.manifest.permissions)) ∧
    (∀ loadRes now st, p.enabled = true →
      ∀ x ∈ p.manifest.permissions,
        x ∈ Store.grantedOf (Store.initStep loadRes now st p).rt p.name) ∧
    (∀ loadRes now st installed (name : String),
      installed.find? (fun q => q.name = name) = some p →
      ∀ x ∈ p.manifest.permissions,
        x ∈ Store.grantedOf (Store.enablePluginRt loadRes now st installed name).rt name) ∧
    (∀ loadRes now st, p.enabled = true →
      ∀ x ∈ p.manifest.permissions,
        x ∈ Store.grantedOf (Store.updatePluginRt loadRes now st p).rt p.name) := by
  have hxc : ∀ x ∈ p.manifest.permissions, x ∈ Store.computeGrant p := by
    intro x hx
    exact (Store.mem_computeGrant p x).mpr (Or.inr hx)
  refine ⟨⟨Store.jsDedup_nodup _, fun x => Store.mem_computeGrant p x⟩, ?_, ?_, ?_⟩
  · intro loadRes now st hen x hx
    unfold Store.initStep
    rw [if_pos hen]
    rcases hres : loadRes p.manifest.name with msg | u
    · simp only [Store.loadAndEnable, hres]
      exact Store.mem_grantedOf_grant _ _ _ _ (hxc x hx)
    · simp only [Store.loadAndEnable, hres]
      exact Store.mem_grantedOf_grant _ _ _ _ (hxc x hx)
  · intro loadRes now st installed name hfind x hx
    have hname : p.name = name := by
      have := List.find?_some hfind
      simpa using this
    unfold Store.enablePluginRt
    rw [hfind]
    by_cases hl : name ∈ (Store.grantPermissions st.rt name (Store.computeGrant p)).loaded
    · simp only [if_pos hl]
      exact Store.mem_grantedOf_grant _ _ _ _ (hxc x hx)
    · simp only [if_neg hl]
      rcases hres : loadRes p.manifest.name with msg | u
      · simp only [Store.loadAndEnable, hres]
        exact Store.mem_grantedOf_grant _ _ _ _ (hxc x hx)
      · simp only [Store.loadAndEnable, hres]
        exact Store.mem_grantedOf_grant _ _ _ _ (hxc x hx)
  · intro loadRes now st hen x hx
    unfold Store.updatePluginRt
    rw [if_pos hen]
    rcases hres : loadRes p.manifest.name with msg | u
    · simp only [Store.loadAndEnable, hres]
      exact Store.mem_grantedOf_grant _ _ _ _ (hxc x hx)
    · simp only [Store.loadAndEnable, hres]
      exact Store.mem_grantedOf_grant _ _ _ _ (hxc x hx)

/-- Witness for C2: a plugin whose manifest declares `ui:inject` while the
backend granted only `player:read` has `ui:inject` granted after the startup
auto-load step, starting from a runtime that holds nothing for it. -/
theorem C2_manifest_permissions_regranted_witness :
    "ui:inject" ∈ Store.grantedOf
      (Store.initStep (fun _ => Except.ok ()) 0
        { failedPlugins := [], rt := { perms := [], loaded := [], enabledPlugins := [] } }
        { name := "P", enabled := true,
          manifest := { name := "P", permissions := ["ui:inject"] },
          granted_permissions := ["player:read"] }).rt "P" := by
  exact (C2_manifest_permissions_regranted _).2.1 (fun _ => Except.ok ()) 0 _ rfl
    "ui:inject" (by decide)

/-- C3: with plugins `A` and `B` both enabled at startup, `A`'s load failing
with message `msg` and `B`'s load succeeding, the init auto-load still loads
and enables `B`, and the failed-plugins roster afterwards is exactly one
record for `A` carrying `msg`, which is non-empty. -/
theorem C3_per_plugin_failure_isolation
    (A B : Store.PluginInfo) (msg : String) (now : Nat)
    (loadRes : String → Except String Unit) (rt0 : Store.Runtime)
    (hA : A.enabled = true) (hB : B.enabled = true) (hne : A.name ≠ B.name)
    (hlaA : loadRes A.manifest.name = Except.error msg)
    (hlaB : loadRes B.manifest.name = Except.ok ())
    (hmsg : msg ≠ "") :
    B.name ∈ (Store.initAutoLoad loadRes now rt0 [A, B]).rt.loaded ∧
    B.name ∈ (Store.initAutoLoad loadRes now rt0 [A, B]).rt.enabledPlugins ∧
    (Store.initAutoLoad loadRes now rt0 [A, B]).failedPlugins =
      [⟨A.name, msg, now⟩] ∧
    (∀ f ∈ (Store.initAutoLoad loadRes now rt0 [A, B]).failedPlugins,
      f.name = A.name ∧ f.error ≠ "") := by
  have hstep1 : ∀ st : Store.StoreState, Store.initStep loadRes now st A =
      { failedPlugins := Store.recordPluginFailure st.failedPlugins A.name msg now
        rt := Store.grantPermissions st.rt A.name (Store.computeGrant A) } := by
    intro st
    unfold Store.initStep
    rw [if_pos hA]
    simp only [Store.loadAndEnable, hlaA]
  have hstep2 : ∀ st : Store.StoreState, Store.initStep loadRes now st B =
      { failedPlugins := Store.clearPluginFailure st.failedPlugins B.name
        rt :=
          { Store.grantPermissions st.rt B.name (Store.computeGrant B) with
            loaded := Store.addUnique
              (Store.grantPermissions st.rt B.name (Store.computeGrant B)).loaded B.name
            enabledPlugins := Store.addUnique
              (Store.grantPermissions st.rt B.name (Store.computeGrant B)).enabledPlugins
              B.name } } := by
    intro st
    unfold Store.initStep
    rw [if_pos hB]
    simp only [Store.loadAndEnable, hlaB]
  have hrun : Store.initAutoLoad loadRes now rt0 [A, B] =
      Store.initStep loadRes now (Store.initStep loadRes now
        { failedPlugins := [], rt := rt0 } A) B := rfl
  rw [hrun, hstep1, hstep2]
  simp only
  have hro : Store.clearPluginFailure
      (Store.recordPluginFailure ([] : List Store.PluginErrorR) A.name msg now) B.name =
      [⟨A.name, msg, now⟩] := by
    unfold Store.recordPluginFailure Store.clearPluginFailure
    simp [hne]
  refine ⟨Store.mem_addUnique_self _ _, Store.mem_addUnique_self _ _, hro, ?_⟩
  intro f hf
  rw [hro] at hf
  simp only [List.mem_singleton] at hf
  subst hf
  exact ⟨rfl, hmsg⟩

/-- Witness for C3 at concrete plugins: `A` fails with "boom", `B` still
reaches the enabled set and the roster is exactly `A`'s record. -/
theorem C3_per_plugin_failure_isolation_witness :
    "B" ∈ (Store.initAutoLoad
      (fun n => if n = "A" then Except.error "boom" else Except.ok ()) 3
      { perms := [], loaded := [], enabledPlugins := [] }
      [{ name := "A", enabled := true, manifest := { name := "A", permissions := [] },
         granted_permissions := [] },
       { name := "B", enabled := true, manifest := { name := "B", permissions := [] },
         granted_permissions := [] }]).rt.enabledPlugins ∧
    (Store.initAutoLoad
      (fun n => if n = "A" then Except.error "boom" else Except.ok ()) 3
      { perms := [], loaded := [], enabledPlugins := [] }
      [{ name := "A", enabled := true, manifest := { name := "A", permissions := [] },
         granted_permissions := [] },
       { name := "B", enabled := true, manifest := { name := "B", permissions := [] },
         granted_permissions := [] }]).failedPlugins = [⟨"A", "boom", 3⟩] := by
  have h := C3_per_plugin_failure_isolation
    { name := "A", enabled := true, manifest := { name := "A", permissions := [] },
      granted_permissions := [] }
    { name := "B", enabled := true, manifest := { name := "B", permissions := [] },
      granted_permissions := [] }
    "boom" 3 (fun n => if n = "A" then Except.error "boom" else Except.ok ())
    { perms := [], loaded := [], enabledPlugins := [] }
    rfl rfl (by decide) rfl rfl (by decide)
  exact ⟨h.2.1, h.2.2.1⟩

namespace Marketplace

theorem evictStep_fold (l : List (String × CacheEntry)) :
    ∀ acc : Option String × Nat,
      (l.foldl evictStep acc).2 ≤ acc.2 ∧
      (∀ p ∈ l, (l.foldl evictStep acc).2 ≤ p.2.timestamp) ∧
      (l.foldl evictStep acc = acc ∨
        ∃ p ∈ l, (l.foldl evictStep acc).1 = some p.1 ∧
          (l.foldl evictStep acc).2 = p.2.timestamp) := by
  induction l with
  | nil => intro acc; simp
  | cons p tl ih =>
      intro acc
      simp only [List.foldl_cons]
      obtain ⟨iha, ihb, ihc⟩ := ih (evictStep acc p)
      have hstep_le : (evictStep acc p).2 ≤ acc.2 := by
        unfold evictStep
        by_cases h : p.2.timestamp < acc.2
        · rw [if_pos h]; exact Nat.le_of_lt h
        · rw [if_neg h]
      have hstep_p : (evictStep acc p).2 ≤ p.2.timestamp := by
        unfold evictStep
        by_cases h : p.2.timestamp < acc.2
        · rw [if_pos h]
        · rw [if_neg h]; exact Nat.le_of_not_lt h
      refine ⟨Nat.le_trans iha hstep_le, ?_, ?_⟩
      · intro q hq
        rcases List.mem_cons.mp hq with rfl | hq'
        · exact Nat.le_trans iha hstep_p
        · exact ihb q hq'
      · rcases ihc with heq | ⟨q, hq, h1, h2⟩
        · by_cases h : p.2.timestamp < acc.2
          · refine Or.inr ⟨p, List.mem_cons_self _ _, ?_, ?_⟩
            · rw [heq]; unfold evictStep; rw [if_pos h]
            · rw [heq]; unfold evictStep; rw [if_pos h]
          · left
            rw [heq]; unfold evictStep; rw [if_neg h]
        · exact Or.inr ⟨q, List.mem_cons_of_mem _ hq, h1, h2⟩

end Marketplace

set_option maxRecDepth 100000 in
/-- C7 counterexample: with the cache at `MAX_CACHE_SIZE` entries all
timestamped at the current time, `set` evicts nothing (`evictOldest` only
selects entries strictly older than `Date.now()`) and the cache grows to
101 entries, exceeding the claimed bound. -/
theorem C7_counterexample_cache_exceeds_max :
    Marketplace.evictOldest Marketplace.fullSameTime 0 = Marketplace.fullSameTime ∧
    (Marketplace.cacheSet Marketplace.fullSameTime "fresh" 42 0).length =
      Marketplace.MAX_CACHE_SIZE + 1 := by
  constructor
  · decide
  · decide

/-- C7 amended: when `set` is called at capacity and at least one entry is
strictly older than the call's `Date.now()`, exactly one entry of minimal
timestamp is deleted before the insert — never an entry with a newer
timestamp in its place. -/
theorem C7_amended_eviction_oldest (c : Marketplace.Cache) (url : String) (data now : Nat)
    (hfull : Marketplace.MAX_CACHE_SIZE ≤ c.length)
    (hold : ∃ q ∈ c, q.2.timestamp < now) :
    ∃ victim ∈ c,
      (∀ q ∈ c, victim.2.timestamp ≤ q.2.timestamp) ∧
      Marketplace.cacheSet c url data now =
        JsMap.mapSetL (JsMap.mapDeleteL c victim.1) url ⟨data, now⟩ := by
  obtain ⟨q0, hq0, hq0lt⟩ := hold
  obtain ⟨ha, hb, hc⟩ := Marketplace.evictStep_fold c (none, now)
  rcases hc with heq | ⟨victim, hv, h1, h2⟩
  · exfalso
    have : (c.foldl Marketplace.evictStep (none, now)).2 = now := by rw [heq]
    have hle := hb q0 hq0
    omega
  · refine ⟨victim, hv, ?_, ?_⟩
    · intro q hq
      have := hb q hq
      omega
    · unfold Marketplace.cacheSet Marketplace.evictOldest
      rw [if_pos hfull, h1]

set_option maxRecDepth 100000 in
/-- Witness for C7 amended: a full cache with one strictly older entry
evicts it (and only it) at the next insert. -/
theorem C7_amended_eviction_oldest_witness :
    ∃ victim ∈ Marketplace.fullOneOld,
      (∀ q ∈ Marketplace.fullOneOld, victim.2.timestamp ≤ q.2.timestamp) ∧
      Marketplace.cacheSet Marketplace.fullOneOld "fresh" 42 1 =
        JsMap.mapSetL (JsMap.mapDeleteL Marketplace.fullOneOld victim.1) "fresh" ⟨42, 1⟩ :=
  C7_amended_eviction_oldest Marketplace.fullOneOld "fresh" 42 1 (by decide)
    ⟨("old", ⟨7, 0⟩), by decide, by decide⟩


namespace JsMap

theorem lookupL_mapSetL_ne {α β : Type} [DecidableEq α] (l : List (α × β)) (k k' : α) (v : β)
    (h : k' ≠ k) : lookupL (mapSetL l k v) k' = lookupL l k' := by
  induction l with
  | nil => simp [mapSetL, lookupL, Ne.symm h]
  | cons p rest ih =>
      obtain ⟨a, b⟩ := p
      by_cases ha : a = k
      · subst ha
        simp [mapSetL, lookupL, Ne.symm h]
      · by_cases hk' : a = k'
        · subst hk'
          simp [mapSetL, ha, lookupL]
        · simp [mapSetL, ha, lookupL, hk', ih]

theorem lookupL_mapDeleteL_self {α β : Type} [DecidableEq α] (l : List (α × β)) (k : α) :
    lookupL (mapDeleteL l k) k = none := by
  induction l with
  | nil => simp [mapDeleteL, lookupL]
  | cons p rest ih =>
      obtain ⟨a, b⟩ := p
      by_cases ha : a = k
      · simpa [mapDeleteL, List.filter_cons, ha] using ih
      · simpa [mapDeleteL, List.filter_cons, ha, lookupL] using ih

theorem lookupL_mapDeleteL_ne {α β : Type} [DecidableEq α] (l : List (α × β)) (k k' : α)
    (h : k' ≠ k) : lookupL (mapDeleteL l k) k' = lookupL l k' := by
  induction l with
  | nil => simp [mapDeleteL, lookupL]
  | cons p rest ih =>
      obtain ⟨a, b⟩ := p
      by_cases ha : a = k
      · subst ha
        simpa [mapDeleteL, List.filter_cons, lookupL, Ne.symm h] using ih
      · by_cases hk' : a = k'
        · subst hk'
          simp [mapDeleteL, List.filter_cons, ha, lookupL]
        · simpa [mapDeleteL, List.filter_cons, ha, lookupL, hk'] using ih

theorem lookupL_of_mem_nodup {α β : Type} [DecidableEq α] {l : List (α × β)} {k : α} {v : β}
    (hmem : (k, v) ∈ l) (hnd : (keysOf l).Nodup) : lookupL l k = some v := by
  induction l with
  | nil => simp at hmem
  | cons p rest ih =>
      obtain ⟨a, b⟩ := p
      have hnd' : a ∉ keysOf rest ∧ (keysOf rest).Nodup := by
        simpa [keysOf] using hnd
      rcases List.mem_cons.mp hmem with heq | hmem'
      · cases heq
        simp [lookupL]
      · have hak : a ≠ k := by
          intro hak
          subst hak
          have : (a, v).1 ∈ keysOf rest := by
            unfold keysOf
            exact List.mem_map_of_mem Prod.fst hmem'
          exact hnd'.1 this
        simp [lookupL, hak, ih hmem' hnd'.2]

end JsMap

namespace Emitter

theorem subscribed_off (st : EmitterState) (e : String) (i : Nat) (ev : String) (id : Nat) :
    subscribed (off st e i) ev id ↔ subscribed st ev id ∧ ¬(ev = e ∧ id = i) := by
  unfold off
  rcases hcur : JsMap.lookupL st.listeners e with _ | cur
  · constructor
    · intro h
      refine ⟨h, ?_⟩
      rintro ⟨rfl, rfl⟩
      unfold subscribed subList at h
      rw [hcur] at h
      simp at h
    · exact fun h => h.1
  · simp only
    by_cases hemp : (cur.filter (fun j => j ≠ i)).length = 0
    · rw [if_pos hemp]
      have hnil : cur.filter (fun j => j ≠ i) = [] := List.length_eq_zero.mp hemp
      by_cases hev : ev = e
      · subst hev
        constructor
        · intro h
          exfalso
          unfold subscribed subList at h
          rw [JsMap.lookupL_mapDeleteL_self] at h
          simp at h
        · rintro ⟨hsub, hne⟩
          exfalso
          unfold subscribed subList at hsub
          rw [hcur] at hsub
          simp only [Option.getD_some] at hsub
          by_cases hid : id = i
          · exact hne ⟨rfl, hid⟩
          · have hmemf : id ∈ cur.filter (fun j => j ≠ i) :=
              List.mem_filter.mpr ⟨hsub, by simpa using hid⟩
            rw [hnil] at hmemf
            simp at hmemf
      · unfold subscribed subList
        rw [JsMap.lookupL_mapDeleteL_ne _ _ _ hev]
        exact ⟨fun h => ⟨h, fun hc => hev hc.1⟩, fun h => h.1⟩
    · rw [if_neg hemp]
      by_cases hev : ev = e
      · subst hev
        unfold subscribed subList
        rw [JsMap.lookupL_mapSetL_self, hcur]
        simp only [Option.getD_some]
        constructor
        · intro h
          have hf := List.mem_filter.mp h
          refine ⟨hf.1, ?_⟩
          rintro ⟨-, rfl⟩
          simpa using hf.2
        · rintro ⟨hsub, hne⟩
          refine List.mem_filter.mpr ⟨hsub, ?_⟩
          by_cases hid : id = i
          · exact absurd (And.intro trivial hid) hne
          · simpa using hid
      · unfold subscribed subList
        rw [JsMap.lookupL_mapSetL_ne _ _ _ _ hev]
        exact ⟨fun h => ⟨h, fun hc => hev hc.1⟩, fun h => h.1⟩

theorem subscribed_offFold (L : List (String × Nat)) :
    ∀ (st : EmitterState) (ev : String) (id : Nat),
      subscribed (L.foldl (fun s p => off s p.1 p.2) st) ev id ↔
        subscribed st ev id ∧ (ev, id) ∉ L := by
  induction L with
  | nil => intro st ev id; simp
  | cons p tl ih =>
      intro st ev id
      obtain ⟨pe, pi⟩ := p
      simp only [List.foldl_cons]
      rw [ih, subscribed_off]
      simp only [List.mem_cons, Prod.mk.injEq]
      constructor
      · rintro ⟨⟨hsub, hne⟩, hni⟩
        refine ⟨hsub, ?_⟩
        rintro (⟨rfl, rfl⟩ | h)
        · exact hne ⟨rfl, rfl⟩
        · exact hni h
      · rintro ⟨hsub, hni⟩
        refine ⟨⟨hsub, ?_⟩, fun h => hni (Or.inr h)⟩
        rintro ⟨rfl, rfl⟩
        exact hni (Or.inl ⟨rfl, rfl⟩)

theorem mem_collectOwned (st : EmitterState) (name : String) (ev : String) (id : Nat)
    (hwf : (JsMap.keysOf st.listeners).Nodup) :
    (ev, id) ∈ collectOwned st name ↔
      subscribed st ev id ∧ JsMap.lookupL st.owners id = some name := by
  unfold collectOwned
  rw [List.mem_flatMap]
  constructor
  · rintro ⟨p, hp, hmem⟩
    obtain ⟨pe, pids⟩ := p
    rw [List.mem_map] at hmem
    obtain ⟨j, hj, hje⟩ := hmem
    obtain ⟨rfl, rfl⟩ : pe = ev ∧ j = id := by
      constructor
      · exact congrArg Prod.fst hje
      · exact congrArg Prod.snd hje
    have hfil := List.mem_filter.mp hj
    have hlk : JsMap.lookupL st.listeners pe = some pids :=
      JsMap.lookupL_of_mem_nodup hp hwf
    refine ⟨?_, by simpa using hfil.2⟩
    unfold subscribed subList
    rw [hlk]
    simpa using hfil.1
  · rintro ⟨hsub, hown⟩
    unfold subscribed subList at hsub
    rcases hlk : JsMap.lookupL st.listeners ev with _ | ids
    · rw [hlk] at hsub; simp at hsub
    · rw [hlk] at hsub
      simp only [Option.getD_some] at hsub
      refine ⟨(ev, ids), JsMap.lookupL_mem hlk, ?_⟩
      rw [List.mem_map]
      exact ⟨id, List.mem_filter.mpr ⟨hsub, by simpa using hown⟩, rfl⟩

end Emitter

/-- C5: `removePluginListeners(name)` removes across all events exactly the
listeners currently tagged with owner `name`: afterwards a listener is
subscribed to an event if and only if it was subscribed before and its
ownership tag is not `name` — so no listener tagged `name` survives, and
every listener with a different tag or no tag keeps all its
subscriptions. -/
theorem C5_removePluginListeners_exact (st : Emitter.EmitterState) (name : String)
    (hwf : (JsMap.keysOf st.listeners).Nodup) (ev : String) (id : Nat) :
    Emitter.subscribed (Emitter.removePluginListeners st name) ev id ↔
      (Emitter.subscribed st ev id ∧ JsMap.lookupL st.owners id ≠ some name) := by
  unfold Emitter.removePluginListeners
  rw [Emitter.subscribed_offFold, Emitter.mem_collectOwned st name ev id hwf]
  constructor
  · rintro ⟨hsub, hni⟩
    exact ⟨hsub, fun hown => hni ⟨hsub, hown⟩⟩
  · rintro ⟨hsub, hown⟩
    exact ⟨hsub, fun h => hown h.2⟩

/-- Witness for C5: with listener 1 on two events tagged "A" and listener 2
tagged "B", removing "A" keeps listener 2 subscribed to "e1" and the
instantiated equivalence certifies listener 1 is gone from "e2". -/
theorem C5_removePluginListeners_exact_witness :
    (Emitter.subscribed
        (Emitter.removePluginListeners
          ⟨[("e1", [1, 2]), ("e2", [1])], [(1, "A"), (2, "B")]⟩ "A") "e1" 2 ↔
      (Emitter.subscribed ⟨[("e1", [1, 2]), ("e2", [1])], [(1, "A"), (2, "B")]⟩ "e1" 2 ∧
        JsMap.lookupL ([(1, "A"), (2, "B")] : List (Nat × String)) 2 ≠ some "A")) ∧
    (Emitter.subscribed
        (Emitter.removePluginListeners
          ⟨[("e1", [1, 2]), ("e2", [1])], [(1, "A"), (2, "B")]⟩ "A") "e2" 1 ↔
      (Emitter.subscribed ⟨[("e1", [1, 2]), ("e2", [1])], [(1, "A"), (2, "B")]⟩ "e2" 1 ∧
        JsMap.lookupL ([(1, "A"), (2, "B")] : List (Nat × String)) 1 ≠ some "A")) := by
  constructor
  · exact C5_removePluginListeners_exact
      ⟨[("e1", [1, 2]), ("e2", [1])], [(1, "A"), (2, "B")]⟩ "A" (by decide) "e1" 2
  · exact C5_removePluginListeners_exact
      ⟨[("e1", [1, 2]), ("e2", [1])], [(1, "A"), (2, "B")]⟩ "A" (by decide) "e2" 1

namespace Emitter

/-- Total occurrences of a listener over an association list of events. -/
theorem occ_def (st : EmitterState) (tgt : Nat) :
    occ st tgt = (st.listeners.map (fun p => p.2.count tgt)).sum := rfl

theorem count_filter_ne (cur : List Nat) (i tgt : Nat) :
    (cur.filter (fun j => j ≠ i)).count tgt = if tgt = i then 0 else cur.count tgt := by
  by_cases hti : tgt = i
  · subst hti
    rw [if_pos rfl, List.count_eq_zero]
    intro h
    have := (List.mem_filter.mp h).2
    simp at this
  · rw [if_neg hti]
    induction cur with
    | nil => simp
    | cons a l ih =>
        by_cases hai : a = i
        · simp [List.filter_cons, List.count_cons, hai, decide_not, Ne.symm hti,
            show List.count tgt (List.filter (fun j => !decide (j = i)) l) =
              List.count tgt l by simpa [decide_not] using ih]
        · simp [List.filter_cons, List.count_cons, hai, decide_not,
            show List.count tgt (List.filter (fun j => !decide (j = i)) l) =
              List.count tgt l by simpa [decide_not] using ih]

theorem listOcc_mapDeleteL_le (l : List (String × List Nat)) (e : String) (tgt : Nat) :
    ((JsMap.mapDeleteL l e).map (fun p => p.2.count tgt)).sum ≤
      (l.map (fun p => p.2.count tgt)).sum := by
  induction l with
  | nil => simp [JsMap.mapDeleteL]
  | cons p rest ih =>
      obtain ⟨a, b⟩ := p
      by_cases ha : a = e
      · have : JsMap.mapDeleteL ((a, b) :: rest) e = JsMap.mapDeleteL rest e := by
          simp [JsMap.mapDeleteL, List.filter_cons, ha]
        rw [this]
        simp only [List.map_cons, List.sum_cons]
        omega
      · have : JsMap.mapDeleteL ((a, b) :: rest) e = (a, b) :: JsMap.mapDeleteL rest e := by
          simp [JsMap.mapDeleteL, List.filter_cons, ha]
        rw [this]
        simp only [List.map_cons, List.sum_cons]
        omega

theorem listOcc_mapDeleteL_add (l : List (String × List Nat)) (e : String) (cur : List Nat)
    (tgt : Nat) (hlk : JsMap.lookupL l e = some cur) :
    ((JsMap.mapDeleteL l e).map (fun p => p.2.count tgt)).sum + cur.count tgt ≤
      (l.map (fun p => p.2.count tgt)).sum := by
  induction l with
  | nil => simp [JsMap.lookupL] at hlk
  | cons p rest ih =>
      obtain ⟨a, b⟩ := p
      by_cases ha : a = e
      · subst ha
        simp [JsMap.lookupL] at hlk
        subst hlk
        have hdel : JsMap.mapDeleteL ((a, b) :: rest) a = JsMap.mapDeleteL rest a := by
          simp [JsMap.mapDeleteL, List.filter_cons]
        rw [hdel]
        have := listOcc_mapDeleteL_le rest a tgt
        simp only [List.map_cons, List.sum_cons]
        omega
      · simp only [JsMap.lookupL, if_neg ha] at hlk
        have hdel : JsMap.mapDeleteL ((a, b) :: rest) e = (a, b) :: JsMap.mapDeleteL rest e := by
          simp [JsMap.mapDeleteL, List.filter_cons, ha]
        rw [hdel]
        have := ih hlk
        simp only [List.map_cons, List.sum_cons]
        omega

theorem listOcc_mapSetL_add (l : List (String × List Nat)) (e : String) (cur v : List Nat)
    (tgt : Nat) (hlk : JsMap.lookupL l e = some cur) :
    ((JsMap.mapSetL l e v).map (fun p => p.2.count tgt)).sum + cur.count tgt =
      (l.map (fun p => p.2.count tgt)).sum + v.count tgt := by
  induction l with
  | nil => simp [JsMap.lookupL] at hlk
  | cons p rest ih =>
      obtain ⟨a, b⟩ := p
      by_cases ha : a = e
      · subst ha
        simp [JsMap.lookupL] at hlk
        subst hlk
        have hset : JsMap.mapSetL ((a, b) :: rest) a v = (a, v) :: rest := by
          simp [JsMap.mapSetL]
        rw [hset]
        simp only [List.map_cons, List.sum_cons]
        omega
      · simp only [JsMap.lookupL, if_neg ha] at hlk
        have hset : JsMap.mapSetL ((a, b) :: rest) e v = (a, b) :: JsMap.mapSetL rest e v := by
          simp [JsMap.mapSetL, ha]
        rw [hset]
        have := ih hlk
        simp only [List.map_cons, List.sum_cons]
        omega

theorem occ_off_both (st : EmitterState) (e : String) (i tgt : Nat) :
    occ (off st e i) tgt ≤ occ st tgt ∧
    (tgt ∈ subList st e → i = tgt → occ (off st e i) tgt < occ st tgt) := by
  unfold off
  rcases hcur : JsMap.lookupL st.listeners e with _ | cur
  · constructor
    · exact Nat.le_refl _
    · intro hmem _
      unfold subList at hmem
      rw [hcur] at hmem
      simp at hmem
  · simp only
    have hsub : subList st e = cur := by unfold subList; rw [hcur]; rfl
    by_cases hemp : (cur.filter (fun j => j ≠ i)).length = 0
    · rw [if_pos hemp]
      have hdel := listOcc_mapDeleteL_add st.listeners e cur tgt hcur
      constructor
      · simp only [occ_def]
        omega
      · intro hmem _
        rw [hsub] at hmem
        have hc1 : 1 ≤ cur.count tgt := List.one_le_count_iff.mpr hmem
        simp only [occ_def]
        omega
    · rw [if_neg hemp]
      have hset := listOcc_mapSetL_add st.listeners e cur (cur.filter (fun j => j ≠ i)) tgt hcur
      rw [count_filter_ne] at hset
      constructor
      · simp only [occ_def]
        by_cases hti : tgt = i
        · rw [if_pos hti] at hset
          omega
        · rw [if_neg hti] at hset
          omega
      · intro hmem hit
        rw [hsub] at hmem
        have hc1 : 1 ≤ cur.count tgt := List.one_le_count_iff.mpr hmem
        rw [if_pos (hit.symm)] at hset
        simp only [occ_def]
        omega

end Emitter

namespace Emitter

theorem runActAux_seq (ef : EmitterState → String → EmitterState × List Nat)
    (st : EmitterState) (a b : Act) :
    runActAux ef st (Act.seq a b) =
      ((runActAux ef (runActAux ef st a).1 b).1,
        (runActAux ef st a).2 ++ (runActAux ef (runActAux ef st a).1 b).2) := rfl

theorem visitIds_cons (env : Nat → LBody) (runA : EmitterState → Act → EmitterState × List Nat)
    (e : String) (id : Nat) (rest : List Nat) (st : EmitterState) :
    visitIds env runA e (id :: rest) st =
      if id ∈ subList st e then
        ((visitIds env runA e rest
            (runA (if (env id).once then off st e id else st) (env id).act).1).1,
          id :: ((runA (if (env id).once then off st e id else st) (env id).act).2 ++
            (visitIds env runA e rest
              (runA (if (env id).once then off st e id else st) (env id).act).1).2))
      else visitIds env runA e rest st := rfl

theorem emitF_succ (env : Nat → LBody) (f : Nat) (st : EmitterState) (e : String) :
    emitF env (f + 1) st e = visitIds env (runActAux (emitF env f)) e (subList st e) st := rfl

theorem emit_occ_bound (env : Nat → LBody) (tgt : Nat) (honce : (env tgt).once = true) :
    ∀ (f : Nat) (st : EmitterState) (e : String),
      (emitF env f st e).2.count tgt + occ (emitF env f st e).1 tgt ≤ occ st tgt := by
  intro f
  induction f with
  | zero => intro st e; simp [emitF]
  | succ f ihE =>
      have hA : ∀ (a : Act) (st : EmitterState),
          (runActAux (emitF env f) st a).2.count tgt +
            occ (runActAux (emitF env f) st a).1 tgt ≤ occ st tgt := by
        intro a
        induction a with
        | skip => intro st; simp [runActAux]
        | emitA e => intro st; exact ihE st e
        | offA e i =>
            intro st
            simpa [runActAux] using (occ_off_both st e i tgt).1
        | seq a b iha ihb =>
            intro st
            rw [runActAux_seq]
            simp only [List.count_append]
            have h1 := iha st
            have h2 := ihb (runActAux (emitF env f) st a).1
            omega
      have hV : ∀ (e : String) (ids : List Nat) (st : EmitterState),
          (visitIds env (runActAux (emitF env f)) e ids st).2.count tgt +
            occ (visitIds env (runActAux (emitF env f)) e ids st).1 tgt ≤ occ st tgt := by
        intro e ids
        induction ids with
        | nil => intro st; simp [visitIds]
        | cons id rest ih =>
            intro st
            by_cases hmem : id ∈ subList st e
            · rw [visitIds_cons, if_pos hmem]
              by_cases hid : id = tgt
              · subst hid
                have hlt : occ (off st e id) id < occ st id :=
                  (occ_off_both st e id id).2 hmem rfl
                have h2 := hA (env id).act (off st e id)
                have h3 := ih (runActAux (emitF env f) (off st e id) (env id).act).1
                simp [honce, List.count_cons, List.count_append]
                omega
              · have hocc1 : occ (if (env id).once then off st e id else st) tgt ≤ occ st tgt := by
                  by_cases ho : (env id).once
                  · rw [if_pos ho]; exact (occ_off_both st e id tgt).1
                  · rw [if_neg ho]
                have h2 := hA (env id).act (if (env id).once then off st e id else st)
                have h3 := ih (runActAux (emitF env f)
                  (if (env id).once then off st e id else st) (env id).act).1
                simp [List.count_cons, List.count_append, hid]
                omega
            · rw [visitIds_cons, if_neg hmem]
              exact ih st
      intro st e
      rw [emitF_succ]
      exact hV e (subList st e) st

theorem emitSeq_occ_bound (env : Nat → LBody) (tgt : Nat) (honce : (env tgt).once = true)
    (f : Nat) :
    ∀ (evs : List String) (st : EmitterState),
      (emitSeq env f st evs).2.count tgt + occ (emitSeq env f st evs).1 tgt ≤ occ st tgt := by
  intro evs
  induction evs with
  | nil => intro st; simp [emitSeq]
  | cons e rest ih =>
      intro st
      have heq : emitSeq env f st (e :: rest) =
          ((emitSeq env f (emitF env f st e).1 rest).1,
            (emitF env f st e).2 ++ (emitSeq env f (emitF env f st e).1 rest).2) := rfl
      rw [heq]
      simp only [List.count_append]
      have h1 := emit_occ_bound env tgt honce f st e
      have h2 := ih (emitF env f st e).1
      omega

end Emitter

/-- C6: a `once` wrapper unregisters itself strictly before invoking the
wrapped listener (the interpretation of a visited `once` entry applies `off`
first), so across any sequence of emits — re-entrant emissions from inside
listener bodies included — a `once` listener subscribed at most once runs at
most one time. -/
theorem C6_once_at_most_once (env : Nat → Emitter.LBody) (tgt : Nat)
    (honce : (env tgt).once = true) (f : Nat) (st : Emitter.EmitterState)
    (evs : List String) (hocc : Emitter.occ st tgt ≤ 1) :
    (Emitter.emitSeq env f st evs).2.count tgt ≤ 1 := by
  have := Emitter.emitSeq_occ_bound env tgt honce f evs st
  omega

/-- Witness for C6: a once listener whose callback re-entrantly emits the
same event, under two top-level emits, still runs at most once. -/
theorem C6_once_at_most_once_witness :
    (Emitter.emitSeq Emitter.onceEnv 5 ⟨[("e", [0, 1])], []⟩ ["e", "e"]).2.count 0 ≤ 1 :=
  C6_once_at_most_once Emitter.onceEnv 0 rfl 5 ⟨[("e", [0, 1])], []⟩ ["e", "e"] (by decide)

namespace JsMap

theorem mapSetL_lookup_eq {α β : Type} [DecidableEq α] {l : List (α × β)} {k : α} {v : β}
    (hlk : lookupL l k = some v) : mapSetL l k v = l := by
  induction l with
  | nil => simp [lookupL] at hlk
  | cons p rest ih =>
      obtain ⟨a, b⟩ := p
      by_cases ha : a = k
      · subst ha
        simp [lookupL] at hlk
        subst hlk
        simp [mapSetL]
      · simp only [lookupL, if_neg ha] at hlk
        simp [mapSetL, ha, ih hlk]

end JsMap

namespace Emitter

theorem subList_onE_self (st : EmitterState) (e : String) (id : Nat) (o : Option String) :
    subList (onE st e id o) e =
      if id ∈ subList st e then subList st e else subList st e ++ [id] := by
  unfold onE subList
  simp only [JsMap.lookupL_mapSetL_self, Option.getD_some]

theorem onE_listeners_of_mem (st : EmitterState) (e : String) (id : Nat) (o : Option String)
    (hmem : id ∈ subList st e) : (onE st e id o).listeners = st.listeners := by
  unfold onE
  simp only [if_pos hmem]
  rcases hlk : JsMap.lookupL st.listeners e with _ | cur
  · exfalso
    unfold subList at hmem
    rw [hlk] at hmem
    simp at hmem
  · have hs : subList st e = cur := by unfold subList; rw [hlk]; rfl
    rw [hs]
    exact JsMap.mapSetL_lookup_eq hlk

theorem mem_subList_onE_self (st : EmitterState) (e : String) (id : Nat) (o : Option String) :
    id ∈ subList (onE st e id o) e := by
  rw [subList_onE_self]
  by_cases h : id ∈ subList st e
  · rw [if_pos h]; exact h
  · rw [if_neg h]; simp

theorem visitIds_skip (env : Nat → LBody) (f : Nat) (e : String) (tgt : Nat)
    (hskip : ∀ j, (env j).act = Act.skip) (hplain : (env tgt).once = false) :
    ∀ (ids : List Nat) (st : EmitterState), tgt ∈ subList st e →
      (visitIds env (runActAux (emitF env f)) e ids st).2.count tgt = ids.count tgt ∧
      tgt ∈ subList (visitIds env (runActAux (emitF env f)) e ids st).1 e := by
  intro ids
  induction ids with
  | nil => intro st hmem; exact ⟨by simp [visitIds], hmem⟩
  | cons id rest ih =>
      intro st hmem
      by_cases hm : id ∈ subList st e
      · rw [visitIds_cons, if_pos hm, hskip id]
        simp only [runActAux]
        have hmem1 : tgt ∈ subList (if (env id).once = true then off st e id else st) e := by
          by_cases hio : (env id).once
          · rw [if_pos hio]
            have hidne : ¬(e = e ∧ tgt = id) := by
              rintro ⟨-, rfl⟩
              rw [hplain] at hio
              exact Bool.false_ne_true hio
            exact (subscribed_off st e id e tgt).mpr ⟨hmem, hidne⟩
          · rw [if_neg hio]; exact hmem
        obtain ⟨hc, hm2⟩ := ih _ hmem1
        refine ⟨?_, hm2⟩
        simp only [List.nil_append, List.count_cons]
        rw [hc]
      · rw [visitIds_cons, if_neg hm]
        have hidne : ¬(id = tgt) := by
          intro h
          rw [h] at hm
          exact hm hmem
        obtain ⟨hc, hm2⟩ := ih st hmem
        refine ⟨?_, hm2⟩
        rw [hc]
        simp [List.count_cons, hidne]

end Emitter

/-- C9: registering the same listener a second time for the same event is
idempotent: the second `on` leaves every event's listener set unchanged,
`listenerCount` does not increase, and — with inert plain listeners — a
single emit of the event invokes the listener exactly once. -/
theorem C9_on_idempotent (st : Emitter.EmitterState) (e : String) (id : Nat)
    (o o' : Option String) (env : Nat → Emitter.LBody) (f : Nat)
    (hskip : ∀ j, (env j).act = Emitter.Act.skip) (hplain : (env id).once = false)
    (hcount : (Emitter.subList st e).count id ≤ 1) :
    (Emitter.onE (Emitter.onE st e id o) e id o').listeners =
      (Emitter.onE st e id o).listeners ∧
    Emitter.listenerCount (Emitter.onE (Emitter.onE st e id o) e id o') e =
      Emitter.listenerCount (Emitter.onE st e id o) e ∧
    (Emitter.emitF env (f + 1) (Emitter.onE (Emitter.onE st e id o) e id o') e).2.count id
      = 1 := by
  have hmem1 : id ∈ Emitter.subList (Emitter.onE st e id o) e :=
    Emitter.mem_subList_onE_self st e id o
  have h1 : (Emitter.onE (Emitter.onE st e id o) e id o').listeners =
      (Emitter.onE st e id o).listeners :=
    Emitter.onE_listeners_of_mem (Emitter.onE st e id o) e id o' hmem1
  have hs2 : Emitter.subList (Emitter.onE (Emitter.onE st e id o) e id o') e =
      Emitter.subList (Emitter.onE st e id o) e := by
    unfold Emitter.subList
    rw [h1]
  have hcnt : (Emitter.subList (Emitter.onE (Emitter.onE st e id o) e id o') e).count id
      = 1 := by
    rw [hs2, Emitter.subList_onE_self]
    by_cases h : id ∈ Emitter.subList st e
    · rw [if_pos h]
      have hone : 1 ≤ (Emitter.subList st e).count id := List.one_le_count_iff.mpr h
      omega
    · rw [if_neg h]
      have h0 : (Emitter.subList st e).count id = 0 := List.count_eq_zero.mpr h
      simp [List.count_append, h0]
  have hmem2 : id ∈ Emitter.subList (Emitter.onE (Emitter.onE st e id o) e id o') e := by
    rw [hs2]
    exact hmem1
  refine ⟨h1, ?_, ?_⟩
  · unfold Emitter.listenerCount
    rw [hs2]
  · rw [Emitter.emitF_succ]
    have hv := Emitter.visitIds_skip env f e id hskip hplain
      (Emitter.subList (Emitter.onE (Emitter.onE st e id o) e id o') e)
      (Emitter.onE (Emitter.onE st e id o) e id o') hmem2
    rw [hv.1]
    exact hcnt

/-- Witness for C9: double registration of listener 0 on event "e" from the
empty emitter, then one emit with inert listeners. -/
theorem C9_on_idempotent_witness :
    (Emitter.onE (Emitter.onE ⟨[], []⟩ "e" 0 none) "e" 0 none).listeners =
      (Emitter.onE ⟨[], []⟩ "e" 0 none).listeners ∧
    Emitter.listenerCount (Emitter.onE (Emitter.onE ⟨[], []⟩ "e" 0 none) "e" 0 none) "e" =
      Emitter.listenerCount (Emitter.onE ⟨[], []⟩ "e" 0 none) "e" ∧
    (Emitter.emitF Emitter.skipEnv 1
      (Emitter.onE (Emitter.onE ⟨[], []⟩ "e" 0 none) "e" 0 none) "e").2.count 0 = 1 :=
  C9_on_idempotent ⟨[], []⟩ "e" 0 none none Emitter.skipEnv 0
    (fun _ => rfl) rfl (by decide)

namespace JsMap

theorem mem_mapSetL {α β : Type} [DecidableEq α] {l : List (α × β)} {k : α} {v : β} {p : α × β}
    (h : p ∈ mapSetL l k v) : p = (k, v) ∨ p ∈ l := by
  induction l with
  | nil => simpa [mapSetL] using h
  | cons q rest ih =>
      obtain ⟨a, b⟩ := q
      by_cases ha : a = k
      · subst ha
        have hstep : mapSetL ((a, b) :: rest) a v = (a, v) :: rest := by
          simp [mapSetL]
        rw [hstep] at h
        rcases List.mem_cons.mp h with heq | hm
        · exact Or.inl heq
        · exact Or.inr (List.mem_cons_of_mem _ hm)
      · have hstep : mapSetL ((a, b) :: rest) k v = (a, b) :: mapSetL rest k v := by
          simp [mapSetL, ha]
        rw [hstep] at h
        rcases List.mem_cons.mp h with heq | hm
        · rw [heq]
          exact Or.inr (List.mem_cons_self _ _)
        · rcases ih hm with h' | h'
          · exact Or.inl h'
          · exact Or.inr (List.mem_cons_of_mem _ h')

theorem lookupL_map_values {α β γ : Type} [DecidableEq α] (l : List (α × β)) (g : β → γ)
    (k : α) : lookupL (l.map (fun p => (p.1, g p.2))) k = (lookupL l k).map g := by
  induction l with
  | nil => simp [lookupL]
  | cons p rest ih =>
      obtain ⟨a, b⟩ := p
      by_cases ha : a = k
      · simp [lookupL, ha]
      · simp [lookupL, ha, ih]

end JsMap

namespace Slots

theorem upsert_names (cs : List SlotContent) (c : SlotContent) :
    (upsert cs c).map (fun q => q.pluginName) =
      if c.pluginName ∈ cs.map (fun q => q.pluginName) then cs.map (fun q => q.pluginName)
      else cs.map (fun q => q.pluginName) ++ [c.pluginName] := by
  induction cs with
  | nil => simp [upsert]
  | cons x xs ih =>
      by_cases hx : x.pluginName = c.pluginName
      · simp [upsert, hx]
      · simp only [upsert, if_neg hx, List.map_cons, ih]
        by_cases hmem : c.pluginName ∈ xs.map (fun q => q.pluginName)
        · simp [hmem, Ne.symm hx]
        · simp [hmem, Ne.symm hx]

theorem upsert_names_nodup (cs : List SlotContent) (c : SlotContent)
    (h : (cs.map (fun q => q.pluginName)).Nodup) :
    ((upsert cs c).map (fun q => q.pluginName)).Nodup := by
  rw [upsert_names]
  by_cases hmem : c.pluginName ∈ cs.map (fun q => q.pluginName)
  · rwa [if_pos hmem]
  · rw [if_neg hmem]
    rw [List.nodup_append]
    refine ⟨h, List.nodup_singleton _, ?_⟩
    intro x hx hxc
    rw [List.mem_singleton] at hxc
    subst hxc
    exact hmem hx

theorem mergeSort_prioLe_perm (l : List SlotContent) : List.Perm (l.mergeSort prioLe) l :=
  List.mergeSort_perm l prioLe

theorem mergeSort_prioLe_sorted (l : List SlotContent) :
    (l.mergeSort prioLe).Pairwise (fun a b => a.priority ≤ b.priority) := by
  have h := @List.sorted_mergeSort SlotContent prioLe
    (by
      intro a b c hab hbc
      simp only [prioLe, decide_eq_true_eq] at hab hbc ⊢
      omega)
    (by
      intro a b
      simp only [prioLe]
      by_cases h : a.priority ≤ b.priority
      · simp [h]
      · simp [h]
        omega)
    l
  exact h.imp (by intro a b hab; simpa [prioLe] using hab)

/-- The C8 per-slot invariant holds for the list `_addToSlot` stores. -/
theorem slotInv_addToSlot_value (cs : List SlotContent) (c : SlotContent)
    (h : (cs.map (fun q => q.pluginName)).Nodup) :
    slotInv ((upsert cs c).mergeSort prioLe) := by
  constructor
  · have hperm : List.Perm (((upsert cs c).mergeSort prioLe).map (fun q => q.pluginName))
        ((upsert cs c).map (fun q => q.pluginName)) :=
      (mergeSort_prioLe_perm (upsert cs c)).map _
    exact hperm.nodup_iff.mpr (upsert_names_nodup cs c h)
  · exact mergeSort_prioLe_sorted _

theorem slotInv_filter (cs : List SlotContent) (pred : SlotContent → Bool)
    (h : slotInv cs) : slotInv (cs.filter pred) := by
  obtain ⟨h1, h2⟩ := h
  constructor
  · exact h1.sublist ((cs.filter_sublist).map _)
  · exact h2.sublist cs.filter_sublist

/-- All slot lists of a slots registry satisfy the per-slot invariant. -/
def SlotsInv (sl : List (String × List SlotContent)) : Prop :=
  ∀ p ∈ sl, slotInv p.2

theorem slotsInv_nil : SlotsInv [] := by intro p hp; simp at hp

theorem slotsInv_mapSetL (sl : List (String × List SlotContent)) (k : String)
    (v : List SlotContent) (h : SlotsInv sl) (hv : slotInv v) :
    SlotsInv (JsMap.mapSetL sl k v) := by
  intro p hp
  rcases JsMap.mem_mapSetL hp with rfl | hp'
  · exact hv
  · exact h p hp'

theorem slotsInv_lookup (sl : List (String × List SlotContent)) (s : String)
    (cs : List SlotContent) (h : SlotsInv sl) (hlk : JsMap.lookupL sl s = some cs) :
    slotInv cs :=
  h (s, cs) (JsMap.lookupL_mem hlk)

theorem slotsInv_addToSlot (st : SlotState) (s : String) (c : SlotContent)
    (h : SlotsInv st.slots) : SlotsInv (addToSlot st s c).slots := by
  unfold addToSlot
  simp only
  apply slotsInv_mapSetL _ _ _ h
  apply slotInv_addToSlot_value
  rcases hlk : JsMap.lookupL st.slots s with _ | cs
  · simp
  · simpa using (slotsInv_lookup st.slots s cs h hlk).1

theorem slotsInv_mirrorStep (sl : List (String × List SlotContent)) (se : String × Nat)
    (h : SlotsInv sl) : SlotsInv (mirrorStep sl se) := by
  unfold mirrorStep
  rcases hlk : JsMap.lookupL sl se.1 with _ | contents
  · exact h
  · exact slotsInv_mapSetL _ _ _ h
      (slotInv_filter _ _ (slotsInv_lookup sl se.1 contents h hlk))

theorem slotsInv_mirrorFold (entries : List (String × Nat)) :
    ∀ sl, SlotsInv sl → SlotsInv (entries.foldl mirrorStep sl) := by
  induction entries with
  | nil => intro sl h; exact h
  | cons e rest ih =>
      intro sl h
      exact ih _ (slotsInv_mirrorStep sl e h)

theorem slotsInv_removeMirrors (st : SlotState) (key : String)
    (h : SlotsInv st.slots) : SlotsInv (removeMirrors st key).slots := by
  unfold removeMirrors
  rcases JsMap.lookupL st.mirrors key with _ | entries
  · exact h
  · exact slotsInv_mirrorFold entries st.slots h

theorem slotsInv_addMirrors (targets : List String) :
    ∀ (st : SlotState) (c : SlotContent), SlotsInv st.slots →
      SlotsInv (addMirrors st c targets).1.slots := by
  induction targets with
  | nil => intro st c h; exact h
  | cons t rest ih =>
      intro st c h
      exact ih _ c (slotsInv_addToSlot { st with nextElem := st.nextElem + 1 } t _ h)

theorem slotsInv_addContent (st : SlotState) (s : String) (c : SlotContent)
    (h : SlotsInv st.slots) : SlotsInv (addContent st s c).slots := by
  unfold addContent
  rcases slotMirrors s with _ | targets
  · exact slotsInv_addToSlot st s c h
  · simp only
    exact slotsInv_addMirrors targets _ c
      (slotsInv_removeMirrors (addToSlot st s c) _ (slotsInv_addToSlot st s c h))

theorem slotsInv_removeContent (st : SlotState) (s pn : String)
    (h : SlotsInv st.slots) : SlotsInv (removeContent st s pn).slots := by
  unfold removeContent
  rcases hlk : JsMap.lookupL st.slots s with _ | contents
  · exact h
  · apply slotsInv_removeMirrors
    exact slotsInv_mapSetL _ _ _ h
      (slotInv_filter _ _ (slotsInv_lookup st.slots s contents h hlk))

theorem slotsInv_removeMirrorsFold (keys : List String) :
    ∀ st : SlotState, SlotsInv st.slots →
      SlotsInv (keys.foldl (fun s k => removeMirrors s k) st).slots := by
  induction keys with
  | nil => intro st h; exact h
  | cons k rest ih =>
      intro st h
      exact ih _ (slotsInv_removeMirrors st k h)

theorem slotsInv_removePluginContent (st : SlotState) (pn : String)
    (h : SlotsInv st.slots) : SlotsInv (removePluginContent st pn).slots := by
  unfold removePluginContent
  apply slotsInv_removeMirrorsFold
  intro p hp
  rw [List.mem_map] at hp
  obtain ⟨q, hq, rfl⟩ := hp
  exact slotInv_filter _ _ (h q hq)

theorem slotsInv_applyOp (st : SlotState) (op : SlotOp) (h : SlotsInv st.slots) :
    SlotsInv (applyOp st op).slots := by
  cases op with
  | add s c => exact slotsInv_addContent st s c h
  | remove s pn => exact slotsInv_removeContent st s pn h
  | removeAll pn => exact slotsInv_removePluginContent st pn h

theorem slotsInv_runOps (ops : List SlotOp) : SlotsInv (runOps ops).slots := by
  unfold runOps
  have hgen : ∀ st : SlotState, SlotsInv st.slots → SlotsInv (ops.foldl applyOp st).slots := by
    induction ops with
    | nil => intro st h; exact h
    | cons op rest ih =>
        intro st h
        exact ih _ (slotsInv_applyOp st op h)
  exact hgen initState slotsInv_nil

end Slots

/-- C8: after any sequence of `addContent` / `removeContent` /
`removePluginContent` operations from the initial state, every slot's
content list has at most one entry per plugin name (re-registration
replaces) and is ordered by ascending priority. -/
theorem C8_slot_list_invariant (ops : List Slots.SlotOp) (slot : String)
    (cs : List Slots.SlotContent)
    (h : JsMap.lookupL (Slots.runOps ops).slots slot = some cs) :
    (cs.map (fun q => q.pluginName)).Nodup ∧
    cs.Pairwise (fun a b => a.priority ≤ b.priority) :=
  Slots.slotsInv_lookup _ _ _ (Slots.slotsInv_runOps ops) h

unseal List.merge List.mergeSort in
/-- Witness for C8: two plugins added to the same slot out of priority
order, with one re-registration, end up unique and sorted. -/
theorem C8_slot_list_invariant_witness :
    ((([(⟨"Q", 11, 3⟩ : Slots.SlotContent), ⟨"P", 10, 5⟩]).map (fun q => q.pluginName)).Nodup ∧
      ([(⟨"Q", 11, 3⟩ : Slots.SlotContent), ⟨"P", 10, 5⟩]).Pairwise
        (fun a b => a.priority ≤ b.priority)) :=
  C8_slot_list_invariant
    [Slots.SlotOp.add "sidebar:top" ⟨"P", 1, 5⟩,
     Slots.SlotOp.add "sidebar:top" ⟨"Q", 11, 3⟩,
     Slots.SlotOp.add "sidebar:top" ⟨"P", 10, 5⟩]
    "sidebar:top" [⟨"Q", 11, 3⟩, ⟨"P", 10, 5⟩] (by decide)

namespace Slots

theorem mirrorStep_sublist (sl : List (String × List SlotContent)) (se : String × Nat)
    (s : String) (cs : List SlotContent) (h : JsMap.lookupL (mirrorStep sl se) s = some cs) :
    ∃ cs0, JsMap.lookupL sl s = some cs0 ∧ cs.Sublist cs0 := by
  unfold mirrorStep at h
  rcases hlk : JsMap.lookupL sl se.1 with _ | contents
  · rw [hlk] at h
    exact ⟨cs, h, List.Sublist.refl cs⟩
  · rw [hlk] at h
    by_cases hs : s = se.1
    · subst hs
      rw [JsMap.lookupL_mapSetL_self] at h
      obtain rfl : contents.filter (fun c => c.element ≠ se.2) = cs := by
        injection h
      exact ⟨contents, hlk, contents.filter_sublist⟩
    · rw [JsMap.lookupL_mapSetL_ne _ _ _ _ hs] at h
      exact ⟨cs, h, List.Sublist.refl cs⟩

theorem mirrorFold_sublist (entries : List (String × Nat)) :
    ∀ (sl : List (String × List SlotContent)) (s : String) (cs : List SlotContent),
      JsMap.lookupL (entries.foldl mirrorStep sl) s = some cs →
      ∃ cs0, JsMap.lookupL sl s = some cs0 ∧ cs.Sublist cs0 := by
  induction entries with
  | nil => intro sl s cs h; exact ⟨cs, h, List.Sublist.refl cs⟩
  | cons e0 rest ih =>
      intro sl s cs h
      obtain ⟨cs1, h1, hsub1⟩ := ih (mirrorStep sl e0) s cs h
      obtain ⟨cs0, h0, hsub0⟩ := mirrorStep_sublist sl e0 s cs1 h1
      exact ⟨cs0, h0, hsub1.trans hsub0⟩

theorem removeMirrors_none (st : SlotState) (key : String)
    (h : JsMap.lookupL st.mirrors key = none) : removeMirrors st key = st := by
  unfold removeMirrors
  rw [h]

theorem removeMirrors_some (st : SlotState) (key : String) (entries : List (String × Nat))
    (h : JsMap.lookupL st.mirrors key = some entries) :
    removeMirrors st key =
      { st with slots := entries.foldl mirrorStep st.slots
                mirrors := JsMap.mapDeleteL st.mirrors key } := by
  unfold removeMirrors
  rw [h]

theorem removeMirrors_slots_sublist (st : SlotState) (key : String) (s : String)
    (cs : List SlotContent) (h : JsMap.lookupL (removeMirrors st key).slots s = some cs) :
    ∃ cs0, JsMap.lookupL st.slots s = some cs0 ∧ cs.Sublist cs0 := by
  rcases hm : JsMap.lookupL st.mirrors key with _ | entries
  · rw [removeMirrors_none st key hm] at h
    exact ⟨cs, h, List.Sublist.refl cs⟩
  · rw [removeMirrors_some st key entries hm] at h
    exact mirrorFold_sublist entries st.slots s cs h

theorem removeMirrorsFold_slots_sublist (keys : List String) :
    ∀ (st : SlotState) (s : String) (cs : List SlotContent),
      JsMap.lookupL ((keys.foldl (fun s k => removeMirrors s k) st)).slots s = some cs →
      ∃ cs0, JsMap.lookupL st.slots s = some cs0 ∧ cs.Sublist cs0 := by
  induction keys with
  | nil => intro st s cs h; exact ⟨cs, h, List.Sublist.refl cs⟩
  | cons k rest ih =>
      intro st s cs h
      obtain ⟨cs1, h1, hsub1⟩ := ih (removeMirrors st k) s cs h
      obtain ⟨cs0, h0, hsub0⟩ := removeMirrors_slots_sublist st k s cs1 h1
      exact ⟨cs0, h0, hsub1.trans hsub0⟩

theorem not_mem_filter_element (contents : List SlotContent) (eid : Nat) :
    eid ∉ (contents.filter (fun c => c.element ≠ eid)).map (fun q => q.element) := by
  intro h
  rw [List.mem_map] at h
  obtain ⟨q, hq, hqe⟩ := h
  have h2 : q.element ≠ eid := by simpa using (List.mem_filter.mp hq).2
  exact h2 hqe

theorem mirrorFold_removes (entries : List (String × Nat)) :
    ∀ (sl : List (String × List SlotContent)), ∀ se ∈ entries,
      ∀ cs : List SlotContent, JsMap.lookupL (entries.foldl mirrorStep sl) se.1 = some cs →
        se.2 ∉ cs.map (fun q => q.element) := by
  induction entries with
  | nil => intro sl se hse; exact absurd hse (List.not_mem_nil se)
  | cons e0 rest ih =>
      intro sl se hse cs hlk
      rcases List.mem_cons.mp hse with heq | hse'
      · subst heq
        obtain ⟨cs1, h1, hsub1⟩ :=
          mirrorFold_sublist rest (mirrorStep sl se) se.1 cs hlk
        rcases hsl : JsMap.lookupL sl se.1 with _ | contents
        · exfalso
          unfold mirrorStep at h1
          rw [hsl] at h1
          rw [h1] at hsl
          simp at hsl
        · have h1' : JsMap.lookupL (mirrorStep sl se) se.1 =
              some (contents.filter (fun c => c.element ≠ se.2)) := by
            unfold mirrorStep
            rw [hsl]
            exact JsMap.lookupL_mapSetL_self sl se.1 _
          rw [h1'] at h1
          obtain rfl : contents.filter (fun c => c.element ≠ se.2) = cs1 := by injection h1
          intro hmem
          exact not_mem_filter_element contents se.2 ((hsub1.map _).subset hmem)
      · exact ih (mirrorStep sl e0) se hse' cs hlk

end Slots

namespace Slots

theorem filter_name_nil_of_not_mem (cs : List SlotContent) (P : String)
    (h : P ∉ cs.map (fun q => q.pluginName)) :
    cs.filter (fun q => q.pluginName = P) = [] := by
  rw [List.filter_eq_nil_iff]
  intro q hq
  simp only [decide_eq_true_eq]
  intro hqe
  exact h (by rw [List.mem_map]; exact ⟨q, hq, hqe⟩)

theorem filter_name_le_one (cs : List SlotContent) (P : String)
    (h : (cs.map (fun q => q.pluginName)).Nodup) :
    (cs.filter (fun q => q.pluginName = P)).length ≤ 1 := by
  induction cs with
  | nil => simp
  | cons x xs ih =>
      have hx : x.pluginName ∉ xs.map (fun q => q.pluginName) ∧
          (xs.map (fun q => q.pluginName)).Nodup := by
        simpa using h
      by_cases hxp : x.pluginName = P
      · rw [List.filter_cons_of_pos (by simpa using hxp)]
        have hnil : xs.filter (fun q => q.pluginName = P) = [] :=
          filter_name_nil_of_not_mem xs P (by rw [← hxp]; exact hx.1)
        rw [hnil]
        simp
      · rw [List.filter_cons_of_neg (by simpa using hxp)]
        exact ih hx.2

theorem upsert_filter_self (cs : List SlotContent) (c : SlotContent)
    (h : (cs.filter (fun q => q.pluginName = c.pluginName)).length ≤ 1) :
    (upsert cs c).filter (fun q => q.pluginName = c.pluginName) = [c] := by
  induction cs with
  | nil => simp [upsert, List.filter_cons]
  | cons x xs ih =>
      by_cases hx : x.pluginName = c.pluginName
      · rw [show upsert (x :: xs) c = c :: xs from by simp [upsert, hx]]
        rw [List.filter_cons_of_pos (by simp)]
        have hxs : xs.filter (fun q => q.pluginName = c.pluginName) = [] := by
          rw [List.filter_cons_of_pos (by simpa using hx)] at h
          simp only [List.length_cons] at h
          have h0 : (xs.filter (fun q => q.pluginName = c.pluginName)).length = 0 := by omega
          exact List.length_eq_zero.mp h0
        rw [hxs]
      · rw [show upsert (x :: xs) c = x :: upsert xs c from by simp [upsert, hx]]
        rw [List.filter_cons_of_neg (by simpa using hx)]
        apply ih
        rw [List.filter_cons_of_neg (by simpa using hx)] at h
        exact h

theorem addToSlot_slots (st : SlotState) (s : String) (c : SlotContent) :
    (addToSlot st s c).slots =
      JsMap.mapSetL st.slots s
        ((upsert ((JsMap.lookupL st.slots s).getD []) c).mergeSort prioLe) := rfl

theorem removeMirrors_nextElem (st : SlotState) (key : String) :
    (removeMirrors st key).nextElem = st.nextElem := by
  rcases hm : JsMap.lookupL st.mirrors key with _ | entries
  · rw [removeMirrors_none st key hm]
  · rw [removeMirrors_some st key entries hm]

theorem removeMirrors_mirrors_none (st : SlotState) (key : String)
    (h : JsMap.lookupL st.mirrors key = none) :
    JsMap.lookupL (removeMirrors st key).mirrors key = none := by
  rw [removeMirrors_none st key h]
  exact h

theorem addContent_menu_eq (st : SlotState) (c : SlotContent) :
    addContent st "playerbar:menu" c =
      { addToSlot
          { removeMirrors (addToSlot st "playerbar:menu" c)
              (mirrorKey "playerbar:menu" c.pluginName) with
            nextElem := (removeMirrors (addToSlot st "playerbar:menu" c)
              (mirrorKey "playerbar:menu" c.pluginName)).nextElem + 1 }
          "mobile:home"
          ⟨c.pluginName,
            (removeMirrors (addToSlot st "playerbar:menu" c)
              (mirrorKey "playerbar:menu" c.pluginName)).nextElem,
            c.priority⟩ with
        mirrors := JsMap.mapSetL
          (removeMirrors (addToSlot st "playerbar:menu" c)
            (mirrorKey "playerbar:menu" c.pluginName)).mirrors
          (mirrorKey "playerbar:menu" c.pluginName)
          [("mobile:home",
            (removeMirrors (addToSlot st "playerbar:menu" c)
              (mirrorKey "playerbar:menu" c.pluginName)).nextElem)] } := rfl

theorem removeContent_eq (st : SlotState) (slot P : String) (cs0 : List SlotContent)
    (hs : JsMap.lookupL st.slots slot = some cs0) :
    removeContent st slot P =
      removeMirrors
        { st with slots :=
            (JsMap.mapSetL st.slots slot (cs0.filter (fun c => c.pluginName ≠ P))) }
        (mirrorKey slot P) := by
  unfold removeContent
  rw [hs]

theorem removePluginContent_eq (st : SlotState) (pn : String) :
    removePluginContent st pn =
      ((JsMap.keysOf st.mirrors).filter (fun k => strEndsWith k ("::" ++ pn))).foldl
        (fun s k => removeMirrors s k)
        { st with slots :=
            (st.slots.map (fun p => (p.1, p.2.filter (fun c => c.pluginName ≠ pn)))) } := rfl

end Slots

namespace Slots

theorem upsert_filter_eq (cs : List SlotContent) (c : SlotContent) (P : String)
    (hP : c.pluginName = P)
    (h : (cs.filter (fun q => q.pluginName = P)).length ≤ 1) :
    (upsert cs c).filter (fun q => q.pluginName = P) = [c] := by
  subst hP
  exact upsert_filter_self cs c h

theorem addContent_menu_parts (st : SlotState) (c : SlotContent) :
    JsMap.lookupL (addContent st "playerbar:menu" c).slots "mobile:home" =
      some ((upsert ((JsMap.lookupL (removeMirrors (addToSlot st "playerbar:menu" c)
          (mirrorKey "playerbar:menu" c.pluginName)).slots "mobile:home").getD [])
          ⟨c.pluginName, st.nextElem, c.priority⟩).mergeSort prioLe) ∧
    JsMap.lookupL (addContent st "playerbar:menu" c).mirrors
        (mirrorKey "playerbar:menu" c.pluginName) =
      some [("mobile:home", st.nextElem)] := by
  have hN : (removeMirrors (addToSlot st "playerbar:menu" c)
      (mirrorKey "playerbar:menu" c.pluginName)).nextElem = st.nextElem :=
    removeMirrors_nextElem _ _
  constructor
  · have h1 : (addContent st "playerbar:menu" c).slots =
        JsMap.mapSetL (removeMirrors (addToSlot st "playerbar:menu" c)
            (mirrorKey "playerbar:menu" c.pluginName)).slots "mobile:home"
          ((upsert ((JsMap.lookupL (removeMirrors (addToSlot st "playerbar:menu" c)
              (mirrorKey "playerbar:menu" c.pluginName)).slots "mobile:home").getD [])
            ⟨c.pluginName, (removeMirrors (addToSlot st "playerbar:menu" c)
              (mirrorKey "playerbar:menu" c.pluginName)).nextElem,
              c.priority⟩).mergeSort prioLe) := rfl
    rw [h1, hN]
    exact JsMap.lookupL_mapSetL_self _ _ _
  · have h2 : (addContent st "playerbar:menu" c).mirrors =
        JsMap.mapSetL (removeMirrors (addToSlot st "playerbar:menu" c)
            (mirrorKey "playerbar:menu" c.pluginName)).mirrors
          (mirrorKey "playerbar:menu" c.pluginName)
          [("mobile:home", (removeMirrors (addToSlot st "playerbar:menu" c)
            (mirrorKey "playerbar:menu" c.pluginName)).nextElem)] := rfl
    rw [h2, hN]
    exact JsMap.lookupL_mapSetL_self _ _ _

end Slots

/-- C4: the mirror lifecycle.  (1) `addContent` on the mirror source
`playerbar:menu` leaves, for the owning plugin, exactly one cloned entry in
the mirror target `mobile:home` — same plugin name and priority, a fresh
element — and records exactly that clone under the mirror key.
(2) `removeContent(source, P)` drops the mirror bookkeeping for `(source,
P)`, removes every recorded clone element from its slot, and leaves no entry
of `P` in the source slot.  (3) `removePluginContent(P)` leaves no entry
with plugin name `P` in any slot — `P`'s own entries and all its clones are
gone. -/
theorem C4_mirror_lifecycle :
    (∀ (st : Slots.SlotState) (c : Slots.SlotContent), Slots.SlotsInv st.slots →
      ((JsMap.lookupL (Slots.addContent st "playerbar:menu" c).slots "mobile:home").getD
          []).filter (fun q => q.pluginName = c.pluginName) =
        [⟨c.pluginName, st.nextElem, c.priority⟩] ∧
      JsMap.lookupL (Slots.addContent st "playerbar:menu" c).mirrors
          (Slots.mirrorKey "playerbar:menu" c.pluginName) =
        some [("mobile:home", st.nextElem)]) ∧
    (∀ (st : Slots.SlotState) (slot P : String) (cs0 : List Slots.SlotContent),
      JsMap.lookupL st.slots slot = some cs0 →
      JsMap.lookupL (Slots.removeContent st slot P).mirrors (Slots.mirrorKey slot P) = none ∧
      (∀ entries, JsMap.lookupL st.mirrors (Slots.mirrorKey slot P) = some entries →
        ∀ se ∈ entries, ∀ cs,
          JsMap.lookupL (Slots.removeContent st slot P).slots se.1 = some cs →
            se.2 ∉ cs.map (fun q => q.element)) ∧
      (∀ cs, JsMap.lookupL (Slots.removeContent st slot P).slots slot = some cs →
        ∀ q ∈ cs, q.pluginName ≠ P)) ∧
    (∀ (st : Slots.SlotState) (P s : String) (cs : List Slots.SlotContent),
      JsMap.lookupL (Slots.removePluginContent st P).slots s = some cs →
      ∀ q ∈ cs, q.pluginName ≠ P) := by
  refine ⟨?_, ?_, ?_⟩
  · intro st c hinv
    obtain ⟨hsl, hmr⟩ := Slots.addContent_menu_parts st c
    refine ⟨?_, hmr⟩
    rw [hsl]
    simp only [Option.getD_some]
    have hlen : (((JsMap.lookupL (Slots.removeMirrors (Slots.addToSlot st "playerbar:menu" c)
        (Slots.mirrorKey "playerbar:menu" c.pluginName)).slots "mobile:home").getD
        []).filter (fun q => q.pluginName = c.pluginName)).length ≤ 1 := by
      rcases hmh : JsMap.lookupL (Slots.removeMirrors (Slots.addToSlot st "playerbar:menu" c)
          (Slots.mirrorKey "playerbar:menu" c.pluginName)).slots "mobile:home" with _ | cs2
      · simp
      · simp only [Option.getD_some]
        obtain ⟨cs1, h1, hsub⟩ :=
          Slots.removeMirrors_slots_sublist (Slots.addToSlot st "playerbar:menu" c)
            (Slots.mirrorKey "playerbar:menu" c.pluginName) "mobile:home" cs2 hmh
        rw [Slots.addToSlot_slots, JsMap.lookupL_mapSetL_ne _ _ _ _ (by decide)] at h1
        have hnd := (Slots.slotsInv_lookup st.slots _ cs1 hinv h1).1
        have hle := Slots.filter_name_le_one cs1 c.pluginName hnd
        have hlenle := (hsub.filter (fun q => q.pluginName = c.pluginName)).length_le
        omega
    have hperm : List.Perm
        ((((Slots.upsert ((JsMap.lookupL (Slots.removeMirrors
            (Slots.addToSlot st "playerbar:menu" c)
            (Slots.mirrorKey "playerbar:menu" c.pluginName)).slots "mobile:home").getD [])
          ⟨c.pluginName, st.nextElem, c.priority⟩).mergeSort Slots.prioLe)).filter
            (fun q => q.pluginName = c.pluginName))
        (((Slots.upsert ((JsMap.lookupL (Slots.removeMirrors
            (Slots.addToSlot st "playerbar:menu" c)
            (Slots.mirrorKey "playerbar:menu" c.pluginName)).slots "mobile:home").getD [])
          ⟨c.pluginName, st.nextElem, c.priority⟩)).filter
            (fun q => q.pluginName = c.pluginName)) :=
      (Slots.mergeSort_prioLe_perm _).filter _
    rw [Slots.upsert_filter_eq _ ⟨c.pluginName, st.nextElem, c.priority⟩ c.pluginName rfl
      hlen] at hperm
    exact List.perm_singleton.mp hperm
  · intro st slot P cs0 hs
    refine ⟨?_, ?_, ?_⟩
    · rw [Slots.removeContent_eq st slot P cs0 hs]
      rcases hm : JsMap.lookupL st.mirrors (Slots.mirrorKey slot P) with _ | entries
      · rw [Slots.removeMirrors_none
          { st with slots :=
            (JsMap.mapSetL st.slots slot (cs0.filter (fun c => c.pluginName ≠ P))) }
          (Slots.mirrorKey slot P) hm]
        exact hm
      · rw [Slots.removeMirrors_some
          { st with slots :=
            (JsMap.mapSetL st.slots slot (cs0.filter (fun c => c.pluginName ≠ P))) }
          (Slots.mirrorKey slot P) entries hm]
        exact JsMap.lookupL_mapDeleteL_self _ _
    · intro entries hm se hse cs hlk
      rw [Slots.removeContent_eq st slot P cs0 hs,
        Slots.removeMirrors_some
          { st with slots :=
            (JsMap.mapSetL st.slots slot (cs0.filter (fun c => c.pluginName ≠ P))) }
          (Slots.mirrorKey slot P) entries hm] at hlk
      exact Slots.mirrorFold_removes entries _ se hse cs hlk
    · intro cs hlk
      rw [Slots.removeContent_eq st slot P cs0 hs] at hlk
      obtain ⟨cs1, h1, hsub⟩ := Slots.removeMirrors_slots_sublist _ _ slot cs hlk
      rw [show ({ st with slots :=
          (JsMap.mapSetL st.slots slot (cs0.filter (fun c => c.pluginName ≠ P))) } :
            Slots.SlotState).slots =
          JsMap.mapSetL st.slots slot (cs0.filter (fun c => c.pluginName ≠ P)) from rfl,
        JsMap.lookupL_mapSetL_self] at h1
      have hcs1 : cs1 = cs0.filter (fun c => c.pluginName ≠ P) := by
        injection h1 with h1e
        exact h1e.symm
      subst hcs1
      intro q hq
      have hqf := hsub.subset hq
      have := (List.mem_filter.mp hqf).2
      simpa using this
  · intro st P s cs hlk
    rw [Slots.removePluginContent_eq] at hlk
    obtain ⟨cs0, h0, hsub⟩ := Slots.removeMirrorsFold_slots_sublist _ _ s cs hlk
    rw [show ({ st with slots :=
        (st.slots.map (fun p => (p.1, p.2.filter (fun c => c.pluginName ≠ P)))) } :
          Slots.SlotState).slots =
        st.slots.map (fun p => (p.1, p.2.filter (fun c => c.pluginName ≠ P))) from rfl,
      JsMap.lookupL_map_values] at h0
    rcases horig : JsMap.lookupL st.slots s with _ | csO
    · rw [horig] at h0
      simp at h0
    · rw [horig] at h0
      have hcs0 : cs0 = csO.filter (fun c => c.pluginName ≠ P) := by
        simp only [Option.map_some'] at h0
        injection h0 with h0e
        exact h0e.symm
      subst hcs0
      intro q hq
      have hqf := hsub.subset hq
      have := (List.mem_filter.mp hqf).2
      simpa using this

unseal List.merge List.mergeSort in
/-- Witness for C4: plugin "X" added to `playerbar:menu` from the empty
manager gets exactly one clone (element 0) in `mobile:home` with its
priority, recorded under the mirror key; removing it from the source drops
the bookkeeping; removing it globally leaves `mobile:home` free of "X". -/
theorem C4_mirror_lifecycle_witness :
    (((JsMap.lookupL (Slots.addContent Slots.initState "playerbar:menu"
          ⟨"X", 100, 5⟩).slots "mobile:home").getD []).filter
        (fun q => q.pluginName = "X") = [⟨"X", 0, 5⟩] ∧
      JsMap.lookupL (Slots.addContent Slots.initState "playerbar:menu"
          ⟨"X", 100, 5⟩).mirrors (Slots.mirrorKey "playerbar:menu" "X") =
        some [("mobile:home", 0)]) ∧
    JsMap.lookupL (Slots.removeContent (Slots.addContent Slots.initState "playerbar:menu"
          ⟨"X", 100, 5⟩) "playerbar:menu" "X").mirrors
        (Slots.mirrorKey "playerbar:menu" "X") = none ∧
    (∀ q ∈ ([] : List Slots.SlotContent), q.pluginName ≠ "X") := by
  refine ⟨?_, ?_, ?_⟩
  · exact C4_mirror_lifecycle.1 Slots.initState ⟨"X", 100, 5⟩
      (fun p hp => absurd hp (List.not_mem_nil p))
  · exact (C4_mirror_lifecycle.2.1 (Slots.addContent Slots.initState "playerbar:menu"
      ⟨"X", 100, 5⟩) "playerbar:menu" "X" [⟨"X", 100, 5⟩] (by decide)).1
  · exact C4_mirror_lifecycle.2.2 (Slots.addContent Slots.initState "playerbar:menu"
      ⟨"X", 100, 5⟩) "X" "mobile:home" [] (by decide)
